import Mathlib

/-!
# Verification of the CPM dependency-analysis core

Shallow embedding of the analysis core of the VS Code .NET Central Package
Management extension: the version comparator (`versionUtils.ts`), the version
range matcher (`nugetService.ts`), and the conflict detection / warning
parsing / merge logic of `packageAnalysisService.ts`, together with proofs of
the behavioural properties stated in the specification.

Strings are processed as `List Char`; `String` wrappers sit at the API
boundary, mirroring the TypeScript function signatures.
-/

namespace Cpm

/-! ## JavaScript string primitives

Faithful models of the JS string operations the source relies on:
`split` on a character class, `parseInt(p) || 0`, `trim`, `replace` (first
occurrence), `split(...).pop()`.
-/

/-- `s.split(/[.-]/)`: split at every `.` or `-`, keeping empty segments
(JS `"".split` yields `[""]`, and consecutive separators yield `""`s). -/
def splitSeps : List Char → List (List Char)
  | [] => [[]]
  | c :: rest =>
    if c = '.' ∨ c = '-' then [] :: splitSeps rest
    else
      match splitSeps rest with
      | seg :: segs => (c :: seg) :: segs
      | [] => [[c]]

/-- Value of a decimal digit character. -/
def digitVal (c : Char) : Nat := c.toNat - '0'.toNat

/-- Value of a hexadecimal digit character. -/
def hexVal (c : Char) : Nat :=
  if c.isDigit then digitVal c
  else if 'a' ≤ c ∧ c ≤ 'f' then c.toNat - 'a'.toNat + 10
  else c.toNat - 'A'.toNat + 10

def isHexDigit (c : Char) : Bool :=
  c.isDigit || ('a' ≤ c && c ≤ 'f') || ('A' ≤ c && c ≤ 'F')

def natOfDigits (base : Nat) (val : Char → Nat) (cs : List Char) : Nat :=
  cs.foldl (fun acc c => acc * base + val c) 0

/-- `parseInt(p) || 0` on a version segment.  JS `parseInt` skips leading
whitespace, accepts an optional sign and an optional `0x`/`0X` hex prefix,
parses the longest digit prefix, and yields `NaN` (here `0`, through `|| 0`)
when no digit is found.  Segments come from splitting on `.` and `-`, so a
`-` sign can never occur and the result is a natural number. -/
def jsParseIntOr0 (cs : List Char) : Nat :=
  let cs := cs.dropWhile (fun c => c.isWhitespace)
  let cs := match cs with
            | '+' :: rest => rest
            | cs => cs
  match cs with
  | '0' :: c :: rest =>
    if c = 'x' ∨ c = 'X' then
      natOfDigits 16 hexVal (rest.takeWhile isHexDigit)
    else
      natOfDigits 10 digitVal (('0' :: c :: rest).takeWhile Char.isDigit)
  | cs => natOfDigits 10 digitVal (cs.takeWhile Char.isDigit)

/-- JS `String.prototype.trim`. -/
def jsTrim (cs : List Char) : List Char :=
  ((cs.dropWhile Char.isWhitespace).reverse.dropWhile Char.isWhitespace).reverse

/-- Remove the first occurrence of `pat` (JS `s.replace(pat, '')` with a
string pattern replaces only the first occurrence). -/
def removeFirst (pat : List Char) : List Char → List Char
  | [] => []
  | c :: cs =>
    if pat.isPrefixOf (c :: cs) then (c :: cs).drop pat.length
    else c :: removeFirst pat cs

/-- `path.split(/[\\/]/).pop()`: the segment after the last path separator. -/
def lastSegment (cs : List Char) : List Char :=
  cs.foldl (fun acc c => if c = '/' ∨ c = '\\' then [] else acc ++ [c]) []

/-- `p.split(/[\\/]/).pop()?.replace('.csproj', '') || p`, the project-name
normalisation applied to every project path in the analysis service. -/
def jsProjectName (p : String) : String :=
  let name := String.mk (removeFirst ".csproj".toList (lastSegment p.toList))
  if name = "" then p else name

/-- JS `toLowerCase()`, applied character by character (the source only
lower-cases ASCII package identifiers). -/
def jsToLower (s : String) : String :=
  String.mk (s.data.map Char.toLower)

/-! ## Version Comparator (`versionUtils.ts`, `compareVersions`) -/

/-- The numeric segments of a version string:
`v.split(/[.-]/).map(p => parseInt(p) || 0)`. -/
def versionParts (v : String) : List Nat :=
  (splitSeps v.toList).map jsParseIntOr0

/-- Tail of the comparison loop once the left segment list is exhausted:
each remaining right segment is compared against `0`. -/
def cmpTailRight : List Nat → Int
  | [] => 0
  | q :: qs => if 0 < q then -1 else cmpTailRight qs

/-- Tail of the comparison loop once the right segment list is exhausted. -/
def cmpTailLeft : List Nat → Int
  | [] => 0
  | p :: ps => if 0 < p then 1 else cmpTailLeft ps

/-- The comparison loop of `compareVersions`: compare segment lists
element-by-element up to the longer length, a missing element reading as `0`
(`const p1 = parts1[i] || 0`), first difference decides. -/
def cmpPadded : List Nat → List Nat → Int
  | [], qs => cmpTailRight qs
  | p :: ps, [] => if 0 < p then 1 else cmpPadded ps []
  | p :: ps, q :: qs =>
    if p < q then -1 else if q < p then 1 else cmpPadded ps qs

/-- `compareVersions(v1, v2)` from `versionUtils.ts`. -/
def compareVersions (v1 v2 : String) : Int :=
  cmpPadded (versionParts v1) (versionParts v2)

theorem cmpTailLeft_neg_tailRight (xs : List Nat) : cmpTailLeft xs = -cmpTailRight xs := by
  induction xs with
  | nil => simp [cmpTailLeft, cmpTailRight]
  | cons x xs ih => by_cases h : 0 < x <;> simp [cmpTailLeft, cmpTailRight, h, ih]

theorem cmpPadded_nil_right (ps : List Nat) : cmpPadded ps [] = cmpTailLeft ps := by
  induction ps with
  | nil => simp [cmpPadded, cmpTailLeft, cmpTailRight]
  | cons p ps ih => simp [cmpPadded, cmpTailLeft, ih]

theorem cmpPadded_self (xs : List Nat) : cmpPadded xs xs = 0 := by
  induction xs with
  | nil => simp [cmpPadded, cmpTailRight]
  | cons x xs ih => simp [cmpPadded, ih]

theorem cmpPadded_neg (xs ys : List Nat) : cmpPadded xs ys = -cmpPadded ys xs := by
  induction xs generalizing ys with
  | nil => simp [cmpPadded, cmpPadded_nil_right, cmpTailLeft_neg_tailRight]
  | cons x xs ih =>
    cases ys with
    | nil =>
      simp [cmpPadded, cmpPadded_nil_right, cmpTailLeft, cmpTailRight]
      by_cases h : 0 < x <;>
        simp [h, cmpPadded_nil_right, cmpTailLeft_neg_tailRight]
    | cons y ys =>
      rcases Nat.lt_trichotomy x y with h | h | h
      · simp [cmpPadded, h, Nat.lt_asymm h, Nat.ne_of_lt' h]
      · subst h; simp [cmpPadded, lt_irrefl, ih]
      · simp [cmpPadded, h, Nat.lt_asymm h, Nat.ne_of_lt' h]

theorem cmpTailRight_mem (qs : List Nat) :
    cmpTailRight qs = -1 ∨ cmpTailRight qs = 0 := by
  induction qs with
  | nil => simp [cmpTailRight]
  | cons q qs ih => by_cases h : 0 < q <;> simp [cmpTailRight, h, ih]

theorem cmpPadded_mem (xs ys : List Nat) :
    cmpPadded xs ys = -1 ∨ cmpPadded xs ys = 0 ∨ cmpPadded xs ys = 1 := by
  induction xs generalizing ys with
  | nil =>
    rcases cmpTailRight_mem ys with h | h <;> simp [cmpPadded, h]
  | cons x xs ih =>
    cases ys with
    | nil =>
      by_cases h : 0 < x
      · simp [cmpPadded, h]
      · simpa [cmpPadded, h] using ih []
    | cons y ys =>
      rcases Nat.lt_trichotomy x y with h | h | h
      · simp [cmpPadded, h]
      · subst h; simp [cmpPadded, lt_irrefl, ih]
      · simp [cmpPadded, h, Nat.lt_asymm h, ih]

theorem cmpPadded_nil_left_ne_one (qs : List Nat) : cmpPadded [] qs ≠ 1 := by
  rcases cmpTailRight_mem qs with h | h <;> simp [cmpPadded, h]

theorem cmpPadded_cons_nil_ne_one (p : Nat) (ps : List Nat) :
    cmpPadded (p :: ps) [] ≠ 1 ↔ p = 0 ∧ cmpPadded ps [] ≠ 1 := by
  by_cases h : 0 < p
  · simp [cmpPadded, h]; omega
  · have hp : p = 0 := by omega
    simp [cmpPadded, h, hp]

theorem cmpPadded_cons_cons_ne_one (p q : Nat) (ps qs : List Nat) :
    cmpPadded (p :: ps) (q :: qs) ≠ 1 ↔ p < q ∨ (p = q ∧ cmpPadded ps qs ≠ 1) := by
  rcases Nat.lt_trichotomy p q with h | h | h
  · simp [cmpPadded, h]
  · subst h; simp [cmpPadded, lt_irrefl]
  · simp [cmpPadded, h, Nat.lt_asymm h]; omega

/-- The comparator's non-strict order is transitive. -/
theorem cmpPadded_trans (as bs cs : List Nat)
    (h1 : cmpPadded as bs ≠ 1) (h2 : cmpPadded bs cs ≠ 1) : cmpPadded as cs ≠ 1 := by
  induction as generalizing bs cs with
  | nil => exact cmpPadded_nil_left_ne_one cs
  | cons a as ih =>
    cases bs with
    | nil =>
      rw [cmpPadded_cons_nil_ne_one] at h1
      cases cs with
      | nil => rw [cmpPadded_cons_nil_ne_one]; exact h1
      | cons c cs =>
        rw [cmpPadded_cons_cons_ne_one]
        rcases Nat.eq_zero_or_pos c with hc | hc
        · exact Or.inr ⟨by omega, ih [] cs h1.2 (cmpPadded_nil_left_ne_one cs)⟩
        · exact Or.inl (by omega)
    | cons b bs =>
      rw [cmpPadded_cons_cons_ne_one] at h1
      cases cs with
      | nil =>
        rw [cmpPadded_cons_nil_ne_one] at h2 ⊢
        rcases h1 with h1 | ⟨rfl, h1⟩
        · omega
        · exact ⟨h2.1, ih bs [] h1 h2.2⟩
      | cons c cs =>
        rw [cmpPadded_cons_cons_ne_one] at h2 ⊢
        rcases h1 with h1 | ⟨rfl, h1⟩ <;> rcases h2 with h2 | ⟨h2e, h2⟩
        · exact Or.inl (by omega)
        · exact Or.inl (by omega)
        · exact Or.inl h2
        · exact Or.inr ⟨h2e, ih bs cs h1 h2⟩

theorem compareVersions_le_iff (a b : String) :
    compareVersions a b ≤ 0 ↔ compareVersions a b ≠ 1 := by
  rcases cmpPadded_mem (versionParts a) (versionParts b) with h | h | h <;>
    simp [compareVersions] at h ⊢ <;> omega

/-- C3: the version comparator `compareVersions` is a lawful total
comparator on version strings: its values lie in `{-1, 0, 1}`, it is
antisymmetric (`compare(a,b) = -compare(b,a)`) and transitive on the induced
non-strict order, `compare(v,v) = 0` for every string `v`, and comparison is
numeric segment-by-segment, so `compare("1.10.0","1.9.0") = 1` (numeric, not
lexicographic). -/
theorem c3_compare_versions_total_order :
    (∀ a b : String,
      compareVersions a b = -1 ∨ compareVersions a b = 0 ∨ compareVersions a b = 1) ∧
    (∀ a b : String, compareVersions a b = -compareVersions b a) ∧
    (∀ a b c : String,
      compareVersions a b ≤ 0 → compareVersions b c ≤ 0 → compareVersions a c ≤ 0) ∧
    (∀ v : String, compareVersions v v = 0) ∧
    compareVersions "1.10.0" "1.9.0" = 1 := by
  refine ⟨fun a b => cmpPadded_mem _ _,
          fun a b => cmpPadded_neg _ _,
          fun a b c h1 h2 => ?_,
          fun v => cmpPadded_self _,
          by decide⟩
  rw [compareVersions_le_iff] at h1 h2 ⊢
  exact cmpPadded_trans _ _ _ h1 h2

/-- Witness for C3's transitivity hypothesis at concrete versions. -/
theorem c3_compare_versions_total_order_witness :
    compareVersions "1.2.0" "2.0.1" ≤ 0 :=
  c3_compare_versions_total_order.2.2.1 "1.2.0" "1.9.9" "2.0.1"
    (by decide) (by decide)

/-! ## Version Range Matcher (`nugetService.ts`, `versionInRange`)

The source parses the range with the anchored regular expression
`^([[(])\s*([^,]*?)\s*,\s*([^)\]]*?)\s*([\])])$` and trims both captures.
Since the lower capture class excludes `,`, the pattern comma is the first
comma of the interior; since the upper capture class excludes `)` and `]`
and only whitespace may follow it, the interior after the first comma must
contain no closing bracket.  The captures, after the surrounding `\s*` and
the final `.trim()`, are the trimmed halves of the interior. -/

/-- Parsed form of a version range: bracket inclusivity and the two
(trimmed, possibly empty) bound strings. -/
structure RangeParts where
  lowerInclusive : Bool
  lowerStr : String
  upperStr : String
  upperInclusive : Bool
deriving Repr, DecidableEq

/-- The range grammar of `versionInRange` (applied to the trimmed range):
leading bracket char, lower token up to the first comma, comma, upper token
free of closing brackets, trailing bracket char. -/
def parseRange (cs : List Char) : Option RangeParts :=
  match cs with
  | [] => none
  | b :: rest =>
    if b = '[' ∨ b = '(' then
      match rest.getLast? with
      | none => none
      | some e =>
        if e = ']' ∨ e = ')' then
          let interior := rest.dropLast
          let l := interior.takeWhile (fun c => !(c == ','))
          match interior.drop l.length with
          | ',' :: u =>
            if u.all (fun c => !(c == ')') && !(c == ']')) then
              some ⟨b = '[', String.mk (jsTrim l), String.mk (jsTrim u), e = ']'⟩
            else none
          | _ => none
        else none
    else none

/-- The bound checks of `versionInRange` on a parsed range: a non-empty
bound is evaluated with `compareVersions`, inclusively for `[`/`]` and
exclusively for `(`/`)`; an empty bound imposes no constraint. -/
def rangeCheck (version : String) (rp : RangeParts) : Bool :=
  (if rp.lowerStr = "" then true
   else if rp.lowerInclusive then decide (0 ≤ compareVersions version rp.lowerStr)
   else decide (0 < compareVersions version rp.lowerStr)) &&
  (if rp.upperStr = "" then true
   else if rp.upperInclusive then decide (compareVersions version rp.upperStr ≤ 0)
   else decide (compareVersions version rp.upperStr < 0))

/-- `versionInRange(version, range)` from `nugetService.ts`: `false` on any
input failing the grammar, otherwise each present bound is checked with
`compareVersions`, `[`/`]` inclusively and `(`/`)` exclusively. -/
def versionInRange (version range : String) : Bool :=
  match parseRange (jsTrim range.toList) with
  | none => false
  | some rp => rangeCheck version rp

/-- C4: the range matcher evaluates interval-notation ranges with inclusive
`[`/`]` and exclusive `(`/`)` bounds, a missing bound imposing no constraint
on its side, and returns `false` (it is a total function, never an error)
for any input not matching the fixed grammar — including a bare version —
with the specified values on the five example inputs. -/
theorem c4_version_in_range :
    (∀ v r : String, parseRange (jsTrim r.toList) = none → versionInRange v r = false) ∧
    (∀ (v r : String) (rp : RangeParts), parseRange (jsTrim r.toList) = some rp →
      (versionInRange v r = true ↔
        (rp.lowerStr = "" ∨
          if rp.lowerInclusive then 0 ≤ compareVersions v rp.lowerStr
          else 0 < compareVersions v rp.lowerStr) ∧
        (rp.upperStr = "" ∨
          if rp.upperInclusive then compareVersions v rp.upperStr ≤ 0
          else compareVersions v rp.upperStr < 0))) ∧
    versionInRange "2.0.0" "(, 2.0.0)" = false ∧
    versionInRange "1.9.9" "(, 2.0.0)" = true ∧
    versionInRange "2.0.0" "[1.0.0,2.0.0]" = true ∧
    versionInRange "2.0.0" "[1.0.0,2.0.0)" = false ∧
    versionInRange "1.0.0" "1.0.0" = false := by
  refine ⟨fun v r h => by unfold versionInRange; rw [h],
          fun v r rp h => ?_, by decide, by decide, by decide, by decide, by decide⟩
  unfold versionInRange
  rw [h]
  unfold rangeCheck
  by_cases hl : rp.lowerStr = "" <;> by_cases hu : rp.upperStr = "" <;>
    by_cases hli : rp.lowerInclusive <;> by_cases hui : rp.upperInclusive <;>
      simp [hl, hu, hli, hui]

/-- Witness for C4's hypotheses: a bare version fails the grammar, and a
parsed inclusive range admits an interior version. -/
theorem c4_version_in_range_witness :
    versionInRange "9.9.9" "5.0.0" = false ∧
    versionInRange "1.5.0" "[1.0.0, 2.0.0]" = true :=
  ⟨c4_version_in_range.1 "9.9.9" "5.0.0" (by decide),
   (c4_version_in_range.2.1 "1.5.0" "[1.0.0, 2.0.0]"
      ⟨true, "1.0.0", "2.0.0", true⟩ (by decide)).mpr (by decide)⟩

/-! ## Data model of the analysis service (`packageAnalysisService.ts`)

`CentralPkg` is the `Package` of `xmlService.ts` (the category label is
irrelevant to analysis and omitted); the `DotnetList*` structures model the
JSON shape of the external resolver's output (`dotnetCliService.ts`), with
optional package lists reading as `[]`, exactly how the service consumes
them (`framework.topLevelPackages || []`). -/

structure CentralPkg where
  name : String
  version : String
deriving Repr, DecidableEq

structure DotnetVuln where
  severity : String
  advisoryurl : String
deriving Repr, DecidableEq

structure DotnetListPackage where
  id : String
  resolvedVersion : String
  vulnerabilities : List DotnetVuln := []
deriving Repr, DecidableEq

structure DotnetListFramework where
  framework : String
  topLevelPackages : List DotnetListPackage := []
  transitivePackages : List DotnetListPackage := []
deriving Repr, DecidableEq

structure DotnetListProject where
  path : String
  frameworks : List DotnetListFramework := []
deriving Repr, DecidableEq

structure DotnetListOutput where
  projects : List DotnetListProject := []
deriving Repr, DecidableEq

structure RestoreWarning where
  code : String
  message : String
  project : String
deriving Repr, DecidableEq

structure TransitiveConflict where
  packageId : String
  centralVersion : String
  transitiveVersion : String
  transitiveParents : List String
  projects : List String
  framework : String
deriving Repr, DecidableEq

structure VulnerablePackageInfo where
  packageId : String
  resolvedVersion : String
  isTransitive : Bool
  vulnerabilities : List DotnetVuln
  projects : List String
  framework : String
deriving Repr, DecidableEq

/-- The `centralPackageMap` of `detectConflicts`: a JS `Map` built from
`[p.name.toLowerCase(), p]` entries, so a later duplicate key overwrites an
earlier one — lookup finds the last entry with the key. -/
def centralLookup (central : List CentralPkg) (key : String) : Option CentralPkg :=
  central.reverse.find? (fun p => jsToLower p.name == key)

def centralHas (central : List CentralPkg) (key : String) : Bool :=
  (centralLookup central key).isSome

/-- Insertion-ordered deduplication, as iterating a JS `Set`. -/
def dedupFirst (l : List String) : List String :=
  l.foldl (fun acc x => if acc.contains x then acc else acc ++ [x]) []

/-! ## Incremental merge (`mergeProjectConflicts`) -/

/-- `for (proj of qs) if (!ps.includes(proj)) ps.push(proj)`. -/
def appendMissing (ps qs : List String) : List String :=
  qs.foldl (fun acc q => if acc.contains q then acc else acc ++ [q]) ps

/-- The `(packageId.lowercase, framework)` identity key comparison used by
both merge paths. -/
def conflictKeyEq (c : TransitiveConflict) (pkgKey fw : String) : Bool :=
  jsToLower c.packageId == pkgKey && c.framework == fw

/-- Mutating the first key-matching record in place (`retained.find(...)`
followed by pushes into its `projects`). -/
def updateFirstConflict (pkgKey fw : String) (qs : List String) :
    List TransitiveConflict → List TransitiveConflict
  | [] => []
  | c :: cs =>
    if conflictKeyEq c pkgKey fw then
      { c with projects := appendMissing c.projects qs } :: cs
    else c :: updateFirstConflict pkgKey fw qs cs

/-- Phase 1 of `mergeProjectConflicts`: strip the affected project names
(case-insensitively) from every existing record, dropping records whose
project list becomes empty. -/
def stripConflicts (existing : List TransitiveConflict) (affectedLower : List String) :
    List TransitiveConflict :=
  existing.filterMap (fun c =>
    let remaining := c.projects.filter (fun p => !(affectedLower.contains (jsToLower p)))
    if remaining.length > 0 then some { c with projects := remaining } else none)

/-- Phase 2 step of `mergeProjectConflicts`: a fresh record either extends
the first surviving record with its identity key, or is inserted as-is. -/
def mergeConflictStep (acc : List TransitiveConflict) (nc : TransitiveConflict) :
    List TransitiveConflict :=
  if acc.any (fun c => conflictKeyEq c (jsToLower nc.packageId) nc.framework) then
    updateFirstConflict (jsToLower nc.packageId) nc.framework nc.projects acc
  else acc ++ [nc]

/-- `mergeProjectConflicts(existing, newResults, affectedProjectNames)` from
`packageAnalysisService.ts`. -/
def mergeProjectConflicts (existing newResults : List TransitiveConflict)
    (affectedProjectNames : List String) : List TransitiveConflict :=
  let affectedLower := affectedProjectNames.map jsToLower
  newResults.foldl mergeConflictStep (stripConflicts existing affectedLower)

theorem appendMissing_mem {p : String} (ps qs : List String)
    (h : p ∈ appendMissing ps qs) : p ∈ ps ∨ p ∈ qs := by
  induction qs generalizing ps with
  | nil => exact Or.inl h
  | cons q qs ih =>
    simp only [appendMissing, List.foldl_cons] at h
    by_cases hq : ps.contains q
    · simp only [hq, if_pos] at h
      rcases ih ps h with h' | h'
      · exact Or.inl h'
      · exact Or.inr (List.mem_cons_of_mem _ h')
    · simp only [hq, if_neg, Bool.false_eq_true, not_false_iff] at h
      rcases ih (ps ++ [q]) h with h' | h'
      · rcases List.mem_append.mp h' with h'' | h''
        · exact Or.inl h''
        · simp at h''; simp [h'']
      · exact Or.inr (List.mem_cons_of_mem _ h')

theorem appendMissing_mem_left {p : String} (ps qs : List String)
    (h : p ∈ ps) : p ∈ appendMissing ps qs := by
  induction qs generalizing ps with
  | nil => exact h
  | cons q qs ih =>
    simp only [appendMissing, List.foldl_cons]
    by_cases hq : ps.contains q
    · simp only [hq, if_pos]; exact ih ps h
    · simp only [hq, if_neg, Bool.false_eq_true, not_false_iff]
      exact ih (ps ++ [q]) (List.mem_append.mpr (Or.inl h))

theorem appendMissing_mem_right {p : String} (ps qs : List String)
    (h : p ∈ qs) : p ∈ appendMissing ps qs := by
  induction qs generalizing ps with
  | nil => cases h
  | cons q qs ih =>
    simp only [appendMissing, List.foldl_cons]
    rcases List.mem_cons.mp h with rfl | h'
    · by_cases hq : ps.contains p
      · simp only [hq, if_pos]
        exact appendMissing_mem_left _ _ (List.mem_of_elem_eq_true hq)
      · simp only [hq, if_neg, Bool.false_eq_true, not_false_iff]
        exact appendMissing_mem_left _ _ (by simp)
    · by_cases hq : ps.contains q <;> simp only [hq, if_pos, if_neg,
        Bool.false_eq_true, not_false_iff] <;> exact ih _ h'

theorem updateFirstConflict_mem {c' : TransitiveConflict} {pkgKey fw : String}
    {qs : List String} {l : List TransitiveConflict}
    (h : c' ∈ updateFirstConflict pkgKey fw qs l) :
    c' ∈ l ∨ ∃ c ∈ l, conflictKeyEq c pkgKey fw ∧
      c' = { c with projects := appendMissing c.projects qs } := by
  induction l with
  | nil => simp [updateFirstConflict] at h
  | cons c cs ih =>
    simp only [updateFirstConflict] at h
    by_cases hc : conflictKeyEq c pkgKey fw
    · simp only [hc, if_pos] at h
      rcases List.mem_cons.mp h with rfl | h'
      · exact Or.inr ⟨c, List.mem_cons_self .., hc, rfl⟩
      · exact Or.inl (List.mem_cons_of_mem _ h')
    · simp only [hc, Bool.false_eq_true, if_false] at h
      rcases List.mem_cons.mp h with rfl | h'
      · exact Or.inl (List.mem_cons_self ..)
      · rcases ih h' with h'' | ⟨c₀, hc₀, hk, he⟩
        · exact Or.inl (List.mem_cons_of_mem _ h'')
        · exact Or.inr ⟨c₀, List.mem_cons_of_mem _ hc₀, hk, he⟩

theorem updateFirstConflict_preserve {c : TransitiveConflict} (pkgKey fw : String)
    (qs : List String) (l : List TransitiveConflict) (h : c ∈ l) :
    ∃ c' ∈ updateFirstConflict pkgKey fw qs l,
      c'.packageId = c.packageId ∧ c'.framework = c.framework ∧
      ∀ p ∈ c.projects, p ∈ c'.projects := by
  induction l with
  | nil => cases h
  | cons c₀ cs ih =>
    simp only [updateFirstConflict]
    by_cases hc : conflictKeyEq c₀ pkgKey fw
    · simp only [hc, if_pos]
      rcases List.mem_cons.mp h with rfl | h'
      · exact ⟨{ c with projects := appendMissing c.projects qs },
          List.mem_cons_self .., rfl, rfl, fun p hp => appendMissing_mem_left _ _ hp⟩
      · exact ⟨c, List.mem_cons_of_mem _ h', rfl, rfl, fun p hp => hp⟩
    · simp only [hc, Bool.false_eq_true, if_false]
      rcases List.mem_cons.mp h with rfl | h'
      · exact ⟨c, List.mem_cons_self .., rfl, rfl, fun p hp => hp⟩
      · obtain ⟨c', hc', he⟩ := ih h'
        exact ⟨c', List.mem_cons_of_mem _ hc', he⟩

theorem updateFirstConflict_hit (pkgKey fw : String) (qs : List String)
    (l : List TransitiveConflict) (h : ∃ c ∈ l, conflictKeyEq c pkgKey fw) :
    ∃ c' ∈ updateFirstConflict pkgKey fw qs l,
      conflictKeyEq c' pkgKey fw ∧ ∀ q ∈ qs, q ∈ c'.projects := by
  induction l with
  | nil => simp at h
  | cons c₀ cs ih =>
    simp only [updateFirstConflict]
    by_cases hc : conflictKeyEq c₀ pkgKey fw
    · simp only [hc, if_pos]
      refine ⟨{ c₀ with projects := appendMissing c₀.projects qs },
        List.mem_cons_self .., ?_, fun q hq => appendMissing_mem_right _ _ hq⟩
      simpa [conflictKeyEq] using hc
    · simp only [hc, Bool.false_eq_true, if_false]
      obtain ⟨c, hcmem, hck⟩ := h
      rcases List.mem_cons.mp hcmem with rfl | h'
      · exact absurd hck hc
      · obtain ⟨c', hc', he⟩ := ih ⟨c, h', hck⟩
        exact ⟨c', List.mem_cons_of_mem _ hc', he⟩

theorem stripConflicts_sound {c' : TransitiveConflict}
    {existing : List TransitiveConflict} {affL : List String}
    (h : c' ∈ stripConflicts existing affL) :
    ∀ p ∈ c'.projects, ¬ (jsToLower p ∈ affL) := by
  simp only [stripConflicts, List.mem_filterMap] at h
  obtain ⟨c, -, heq⟩ := h
  split at heq
  · rw [Option.some.injEq] at heq
    subst heq
    intro p hp
    have := List.of_mem_filter hp
    simpa using this
  · cases heq

/-- Mid-level invariant for phase 2 of the incremental merge: every project
name attributed to an output record either survived the affected-projects
strip or stems from a fresh record with the same identity key. -/
theorem mergeFold_sound (news : List TransitiveConflict) (affL : List String)
    (ns : List TransitiveConflict) (hsub : ∀ nc ∈ ns, nc ∈ news)
    (acc : List TransitiveConflict)
    (hacc : ∀ c' ∈ acc, ∀ p ∈ c'.projects, ¬ (jsToLower p ∈ affL) ∨
      ∃ nc ∈ news, jsToLower nc.packageId = jsToLower c'.packageId ∧
        nc.framework = c'.framework ∧ p ∈ nc.projects) :
    ∀ c' ∈ ns.foldl mergeConflictStep acc, ∀ p ∈ c'.projects, ¬ (jsToLower p ∈ affL) ∨
      ∃ nc ∈ news, jsToLower nc.packageId = jsToLower c'.packageId ∧
        nc.framework = c'.framework ∧ p ∈ nc.projects := by
  induction ns generalizing acc with
  | nil => simpa using hacc
  | cons n ns ih =>
    simp only [List.foldl_cons]
    refine ih (fun nc h => hsub nc (List.mem_cons_of_mem _ h)) _ ?_
    intro c' hc' p hp
    unfold mergeConflictStep at hc'
    by_cases hany : acc.any (fun c => conflictKeyEq c (jsToLower n.packageId) n.framework)
    · simp only [hany, if_pos] at hc'
      rcases updateFirstConflict_mem hc' with hmem | ⟨c, hcmem, hkey, rfl⟩
      · exact hacc c' hmem p hp
      · rcases appendMissing_mem _ _ hp with hold | hnew
        · exact hacc c hcmem p hold
        · right
          refine ⟨n, hsub n (List.mem_cons_self ..), ?_, ?_, hnew⟩
          · simp only [conflictKeyEq, Bool.and_eq_true, beq_iff_eq] at hkey
            exact hkey.1.symm
          · simp only [conflictKeyEq, Bool.and_eq_true, beq_iff_eq] at hkey
            exact hkey.2.symm
    · simp only [hany, Bool.false_eq_true, if_false] at hc'
      rcases List.mem_append.mp hc' with h' | h'
      · exact hacc c' h' p hp
      · simp only [List.mem_singleton] at h'
        subst h'
        exact Or.inr ⟨c', hsub c' (List.mem_cons_self ..), rfl, rfl, hp⟩

/-- Mid-level invariant for phase 2: records only ever gain projects, with
identity fields untouched. -/
theorem mergeFold_preserve (ns : List TransitiveConflict)
    (acc : List TransitiveConflict) {c : TransitiveConflict} (h : c ∈ acc) :
    ∃ c' ∈ ns.foldl mergeConflictStep acc,
      c'.packageId = c.packageId ∧ c'.framework = c.framework ∧
      ∀ p ∈ c.projects, p ∈ c'.projects := by
  induction ns generalizing acc c with
  | nil => exact ⟨c, h, rfl, rfl, fun p hp => hp⟩
  | cons n ns ih =>
    simp only [List.foldl_cons]
    unfold mergeConflictStep
    by_cases hany : acc.any (fun c => conflictKeyEq c (jsToLower n.packageId) n.framework)
    · simp only [hany, if_pos]
      obtain ⟨c₁, hc₁, hid, hfw, hpr⟩ :=
        updateFirstConflict_preserve (jsToLower n.packageId) n.framework n.projects acc h
      obtain ⟨c', hc', hid', hfw', hpr'⟩ := ih _ hc₁
      exact ⟨c', hc', hid'.trans hid, hfw'.trans hfw,
        fun p hp => hpr' p (hpr p hp)⟩
    · simp only [hany, Bool.false_eq_true, if_false]
      exact ih _ (List.mem_append.mpr (Or.inl h))

/-- Mid-level invariant for phase 2: every fresh record's data lands on some
output record with the fresh record's identity key. -/
theorem mergeFold_fresh (ns : List TransitiveConflict)
    (acc : List TransitiveConflict) {nc : TransitiveConflict} (h : nc ∈ ns) :
    ∃ c' ∈ ns.foldl mergeConflictStep acc,
      jsToLower c'.packageId = jsToLower nc.packageId ∧ c'.framework = nc.framework ∧
      ∀ p ∈ nc.projects, p ∈ c'.projects := by
  induction ns generalizing acc with
  | nil => cases h
  | cons n ns ih =>
    simp only [List.foldl_cons]
    rcases List.mem_cons.mp h with rfl | h'
    · have : ∃ c₁ ∈ mergeConflictStep acc nc,
          jsToLower c₁.packageId = jsToLower nc.packageId ∧ c₁.framework = nc.framework ∧
          ∀ p ∈ nc.projects, p ∈ c₁.projects := by
        unfold mergeConflictStep
        by_cases hany : acc.any (fun c => conflictKeyEq c (jsToLower nc.packageId) nc.framework)
        · simp only [hany, if_pos]
          have hex : ∃ c ∈ acc, conflictKeyEq c (jsToLower nc.packageId) nc.framework := by
            simpa using hany
          obtain ⟨c₁, hc₁, hk, hq⟩ :=
            updateFirstConflict_hit (jsToLower nc.packageId) nc.framework nc.projects acc hex
          simp only [conflictKeyEq, Bool.and_eq_true, beq_iff_eq] at hk
          exact ⟨c₁, hc₁, hk.1, hk.2, hq⟩
        · simp only [hany, Bool.false_eq_true, if_false]
          exact ⟨nc, List.mem_append.mpr (Or.inr (List.mem_singleton.mpr rfl)),
            rfl, rfl, fun p hp => hp⟩
      obtain ⟨c₁, hc₁, hid, hfw, hpr⟩ := this
      obtain ⟨c', hc', hid', hfw', hpr'⟩ := mergeFold_preserve ns _ hc₁
      exact ⟨c', hc', by rw [hid', hid], hfw'.trans hfw, fun p hp => hpr' p (hpr p hp)⟩
    · exact ih _ h'

/-- C6: the incremental conflict merge first removes the affected project
names (case-insensitively) from every existing record, dropping a record
whose project list becomes empty, then lands every fresh record on a
surviving record with the same `(packageId lowercase, framework)` key
(appending its missing project names) or inserts it as-is.  In particular an
existing conflict spanning projects `{A, B}`, after a re-analysis of `A`
alone that produced no conflict for the package, retains exactly `{B}`, and
is dropped entirely when its project list empties. -/
theorem c6_incremental_merge :
    (∀ (existing news : List TransitiveConflict) (affected : List String),
      ∀ c' ∈ mergeProjectConflicts existing news affected, ∀ p ∈ c'.projects,
        ¬ (jsToLower p ∈ affected.map jsToLower) ∨
        ∃ nc ∈ news, jsToLower nc.packageId = jsToLower c'.packageId ∧
          nc.framework = c'.framework ∧ p ∈ nc.projects) ∧
    (∀ (c : TransitiveConflict) (a b : String), jsToLower a ≠ jsToLower b →
      c.projects = [a, b] →
      mergeProjectConflicts [c] [] [a] = [{ c with projects := [b] }]) ∧
    (∀ (c : TransitiveConflict) (a : String), c.projects = [a] →
      mergeProjectConflicts [c] [] [a] = []) ∧
    (∀ (existing news : List TransitiveConflict) (affected : List String),
      ∀ nc ∈ news, ∃ c' ∈ mergeProjectConflicts existing news affected,
        jsToLower c'.packageId = jsToLower nc.packageId ∧ c'.framework = nc.framework ∧
        ∀ p ∈ nc.projects, p ∈ c'.projects) := by
  refine ⟨fun existing news affected => ?_, fun c a b hab hc => ?_, fun c a hc => ?_,
          fun existing news affected nc hnc => mergeFold_fresh _ _ hnc⟩
  · refine mergeFold_sound news _ news (fun nc h => h) _ ?_
    intro c' hc' p hp
    exact Or.inl (stripConflicts_sound hc' p hp)
  · unfold mergeProjectConflicts
    simp only [List.foldl_nil, List.map_cons, List.map_nil]
    unfold stripConflicts
    rw [List.filterMap_cons, List.filterMap_nil, hc]
    have h1 : ([jsToLower a] : List String).contains (jsToLower a) = true := by simp
    have hne : ¬ (jsToLower b = jsToLower a) := fun h => hab h.symm
    have h2 : ([jsToLower a] : List String).contains (jsToLower b) = false := by
      simpa using hne
    simp [List.filter_cons, h1, h2, hne]
  · unfold mergeProjectConflicts
    simp only [List.foldl_nil, List.map_cons, List.map_nil]
    unfold stripConflicts
    rw [List.filterMap_cons, List.filterMap_nil, hc]
    simp

/-- Witness for C6's hypotheses at a concrete conflict record. -/
theorem c6_incremental_merge_witness :
    mergeProjectConflicts
      [⟨"Newtonsoft.Json", "12.0.0", "13.0.1", [], ["ProjA", "ProjB"], "net8.0"⟩]
      [] ["ProjA"] =
    [⟨"Newtonsoft.Json", "12.0.0", "13.0.1", [], ["ProjB"], "net8.0"⟩] :=
  c6_incremental_merge.2.1
    ⟨"Newtonsoft.Json", "12.0.0", "13.0.1", [], ["ProjA", "ProjB"], "net8.0"⟩
    "ProjA" "ProjB" (by decide) rfl

/-! ## JSON-path conflict detection (`detectConflicts`) -/

/-- A state invariant survives a left fold whose step preserves it for every
element of the folded list. -/
theorem foldl_preserve_mem {σ α : Type} (f : σ → α → σ) (P : σ → Prop)
    (l : List α) (h : ∀ s, ∀ a ∈ l, P s → P (f s a)) :
    ∀ s, P s → P (l.foldl f s) := by
  induction l with
  | nil => intro s hs; simpa using hs
  | cons a l ih =>
    intro s hs
    simp only [List.foldl_cons]
    exact ih (fun s' a' ha' hs' => h s' a' (List.mem_cons_of_mem _ ha') hs') _
      (h s a (List.mem_cons_self ..) hs)

/-- The `seen`-set key of `detectConflicts`. -/
def conflictKey (pkgId fw : String) : String := jsToLower pkgId ++ "|" ++ fw

/-- Processing one transitive package of one framework in `detectConflicts`:
look the package up case-insensitively in the central manifest and flag a
conflict only when the central version differs from and compares strictly
lower than the transitively resolved version; a repeated identity key only
adds the project name to the existing record. -/
def detectStep (central : List CentralPkg) (projectName : String)
    (topIdsLower : List String) (fwName : String)
    (st : List TransitiveConflict × List String) (tp : DotnetListPackage) :
    List TransitiveConflict × List String :=
  match centralLookup central (jsToLower tp.id) with
  | none => st
  | some centralPkg =>
    if centralPkg.version ≠ tp.resolvedVersion ∧
        compareVersions centralPkg.version tp.resolvedVersion < 0 then
      if st.2.contains (conflictKey tp.id fwName) then
        (updateFirstConflict (jsToLower tp.id) fwName [projectName] st.1, st.2)
      else
        (st.1 ++ [{
            packageId := centralPkg.name,
            centralVersion := centralPkg.version,
            transitiveVersion := tp.resolvedVersion,
            transitiveParents := (topIdsLower.filter
              (fun id => !(centralHas central id) || !(id == jsToLower tp.id))).take 5,
            projects := [projectName],
            framework := fwName }],
         st.2 ++ [conflictKey tp.id fwName])
    else st

def detectFramework (central : List CentralPkg) (projectName : String)
    (st : List TransitiveConflict × List String) (fw : DotnetListFramework) :
    List TransitiveConflict × List String :=
  let topIds := dedupFirst (fw.topLevelPackages.map (fun p => jsToLower p.id))
  fw.transitivePackages.foldl (detectStep central projectName topIds fw.framework) st

def detectProject (central : List CentralPkg)
    (st : List TransitiveConflict × List String) (project : DotnetListProject) :
    List TransitiveConflict × List String :=
  project.frameworks.foldl (detectFramework central (jsProjectName project.path)) st

/-- `detectConflicts(output)` from `packageAnalysisService.ts`, with the
central manifest passed explicitly. -/
def detectConflicts (central : List CentralPkg) (output : DotnetListOutput) :
    List TransitiveConflict :=
  (output.projects.foldl (detectProject central) ([], [])).1

theorem centralLookup_name {central : List CentralPkg} {key : String} {p : CentralPkg}
    (h : centralLookup central key = some p) : jsToLower p.name = key := by
  unfold centralLookup at h
  have := List.find?_some h
  simpa using this

/-- The property C1 asserts of every record the JSON path produces: its
central version is the manifest's (case-insensitive) entry for the package,
and it compares strictly below the transitively resolved version. -/
def centralStrictlyLower (central : List CentralPkg) (c : TransitiveConflict) : Prop :=
  centralLookup central (jsToLower c.packageId) = some ⟨c.packageId, c.centralVersion⟩ ∧
  compareVersions c.centralVersion c.transitiveVersion = -1

instance (central : List CentralPkg) (c : TransitiveConflict) :
    Decidable (centralStrictlyLower central c) := by
  unfold centralStrictlyLower; infer_instance

theorem detectStep_strictlyLower (central : List CentralPkg)
    (projectName : String) (topIds : List String) (fwName : String)
    (st : List TransitiveConflict × List String) (tp : DotnetListPackage)
    (hinv : ∀ c ∈ st.1, centralStrictlyLower central c) :
    ∀ c ∈ (detectStep central projectName topIds fwName st tp).1,
      centralStrictlyLower central c := by
  intro c hc
  unfold detectStep at hc
  split at hc
  · exact hinv c hc
  · rename_i centralPkg hl
    split at hc
    · rename_i hcond
      split at hc
      · rcases updateFirstConflict_mem hc with h | ⟨c₀, hc₀, -, rfl⟩
        · exact hinv c h
        · exact hinv c₀ hc₀
      · rcases List.mem_append.mp hc with h | h
        · exact hinv c h
        · simp only [List.mem_singleton] at h
          subst h
          refine ⟨?_, ?_⟩
          · show centralLookup central (jsToLower centralPkg.name) = _
            rw [centralLookup_name hl]
            exact hl
          · show compareVersions centralPkg.version tp.resolvedVersion = -1
            rcases cmpPadded_mem (versionParts centralPkg.version)
              (versionParts tp.resolvedVersion) with h' | h' | h'
            · exact h'
            · exact absurd hcond.2 (by simp [compareVersions, h'])
            · exact absurd hcond.2 (by simp [compareVersions, h'])
    · exact hinv c hc

/-- C1: the JSON-path conflict detector flags a transitive package only when
the central manifest's version for it (looked up case-insensitively) is
strictly lower than the transitively resolved version per the version
comparator; every produced record carries that central version and a
strictly lower comparison, so no record exists for an entry whose central
version is equal to or higher than the resolved one. -/
theorem c1_detect_conflicts_only_when_central_lower
    (central : List CentralPkg) (output : DotnetListOutput) :
    ∀ c ∈ detectConflicts central output, centralStrictlyLower central c := by
  have hfw : ∀ (pn : String) (st : List TransitiveConflict × List String)
      (fw : DotnetListFramework),
      (∀ c ∈ st.1, centralStrictlyLower central c) →
      ∀ c ∈ (detectFramework central pn st fw).1, centralStrictlyLower central c := by
    intro pn st fw hinv
    unfold detectFramework
    exact foldl_preserve_mem _ (fun st => ∀ c ∈ st.1, centralStrictlyLower central c) _
      (fun s a _ hs => detectStep_strictlyLower central pn _ _ s a hs) st hinv
  have hproj : ∀ (st : List TransitiveConflict × List String) (proj : DotnetListProject),
      (∀ c ∈ st.1, centralStrictlyLower central c) →
      ∀ c ∈ (detectProject central st proj).1, centralStrictlyLower central c := by
    intro st proj hinv
    unfold detectProject
    exact foldl_preserve_mem _ (fun st => ∀ c ∈ st.1, centralStrictlyLower central c) _
      (fun s a _ hs => hfw _ s a hs) st hinv
  unfold detectConflicts
  exact foldl_preserve_mem _ (fun st => ∀ c ∈ st.1, centralStrictlyLower central c) _
    (fun s a _ hs => hproj s a hs) ([], []) (by intro c hc; simp at hc)

/-- Witness for C1 at a one-project, one-conflict report. -/
theorem c1_detect_conflicts_only_when_central_lower_witness :
    centralStrictlyLower [⟨"Serilog", "1.0.0"⟩]
      ⟨"Serilog", "1.0.0", "2.0.0", [], ["App"], "net8.0"⟩ :=
  c1_detect_conflicts_only_when_central_lower [⟨"Serilog", "1.0.0"⟩]
    ⟨[⟨"/src/App.csproj", [⟨"net8.0", [], [⟨"Serilog", "2.0.0", []⟩]⟩]⟩]⟩
    ⟨"Serilog", "1.0.0", "2.0.0", [], ["App"], "net8.0"⟩ (by decide)

/-- C7 counterexample: the filter in `detectConflicts` keeps a top-level id
whenever it is not centrally managed OR differs from the conflicting
package, so a centrally-managed top-level package different from the
conflicting one DOES appear in `transitiveParents`.  Here `Serilog` is
centrally managed, distinct from the conflicting `Humanizer`, yet appears as
a transitive parent. -/
theorem c7_transitive_parents_counterexample :
    ¬ (∀ c ∈ detectConflicts
          [⟨"Humanizer", "1.0.0"⟩, ⟨"Serilog", "9.9.9"⟩]
          ⟨[⟨"/src/App.csproj",
             [⟨"net8.0", [⟨"Serilog", "9.9.9", []⟩], [⟨"Humanizer", "2.0.0", []⟩]⟩]⟩]⟩,
        ∀ p ∈ c.transitiveParents,
          ¬ (centralHas [⟨"Humanizer", "1.0.0"⟩, ⟨"Serilog", "9.9.9"⟩] p = true ∧
             p ≠ jsToLower c.packageId)) := by decide

/-- The amended parent-list property C7 actually enjoys: the parent names of
a produced record are at most five lowercased top-level package names of a
framework bearing the record's framework name, excluding only the
conflicting package itself (other centrally-managed names may appear). -/
def parentsWellFormed (output : DotnetListOutput) (c : TransitiveConflict) : Prop :=
  c.transitiveParents.length ≤ 5 ∧
  ∀ p ∈ c.transitiveParents, p ≠ jsToLower c.packageId ∧
    ∃ proj ∈ output.projects, ∃ fw ∈ proj.frameworks,
      fw.framework = c.framework ∧ ∃ tp ∈ fw.topLevelPackages, jsToLower tp.id = p

theorem detectStep_parents {central : List CentralPkg} {output : DotnetListOutput}
    (pn : String) (fw : DotnetListFramework)
    (hfw : ∃ proj ∈ output.projects, fw ∈ proj.frameworks)
    (st : List TransitiveConflict × List String) (tp : DotnetListPackage)
    (hinv : ∀ c ∈ st.1, parentsWellFormed output c) :
    ∀ c ∈ (detectStep central pn
        (dedupFirst (fw.topLevelPackages.map (fun p => jsToLower p.id)))
        fw.framework st tp).1,
      parentsWellFormed output c := by
  intro c hc
  unfold detectStep at hc
  split at hc
  · exact hinv c hc
  · rename_i centralPkg hl
    split at hc
    · split at hc
      · rcases updateFirstConflict_mem hc with h | ⟨c₀, hc₀, -, rfl⟩
        · exact hinv c h
        · exact hinv c₀ hc₀
      · rcases List.mem_append.mp hc with h | h
        · exact hinv c h
        · simp only [List.mem_singleton] at h
          subst h
          constructor
          · exact List.length_take_le 5 _
          · intro p hp
            have hp' := List.mem_of_mem_take hp
            have hmem := (List.mem_filter.mp hp').1
            have hcondp := (List.mem_filter.mp hp').2
            constructor
            · show p ≠ jsToLower centralPkg.name
              rw [centralLookup_name hl]
              intro heq
              subst heq
              simp [centralHas, hl] at hcondp
            · obtain ⟨proj, hproj, hfwmem⟩ := hfw
              have hmem' : p ∈ appendMissing []
                  (fw.topLevelPackages.map (fun p => jsToLower p.id)) := hmem
              have : p ∈ fw.topLevelPackages.map (fun p => jsToLower p.id) := by
                rcases appendMissing_mem _ _ hmem' with h0 | h0
                · cases h0
                · exact h0
              obtain ⟨tp', htp', hid⟩ := List.mem_map.mp this
              exact ⟨proj, hproj, fw, hfwmem, rfl, tp', htp', hid⟩
    · exact hinv c hc

/-- C7 amended: a new conflict record's `transitiveParents` holds at most 5
of the framework's (lowercased) top-level package names and never the
conflicting package itself; contrary to the original claim, top-level
packages that are centrally managed but different from the conflicting one
are not excluded (see the counterexample). -/
theorem c7_transitive_parents_amended
    (central : List CentralPkg) (output : DotnetListOutput) :
    ∀ c ∈ detectConflicts central output, parentsWellFormed output c := by
  have hfw : ∀ (pn : String) (st : List TransitiveConflict × List String)
      (fw : DotnetListFramework), (∃ proj ∈ output.projects, fw ∈ proj.frameworks) →
      (∀ c ∈ st.1, parentsWellFormed output c) →
      ∀ c ∈ (detectFramework central pn st fw).1, parentsWellFormed output c := by
    intro pn st fw hor hinv
    unfold detectFramework
    exact foldl_preserve_mem _ (fun st => ∀ c ∈ st.1, parentsWellFormed output c) _
      (fun s a _ hs => detectStep_parents pn fw hor s a hs) st hinv
  have hproj : ∀ (st : List TransitiveConflict × List String)
      (proj : DotnetListProject), proj ∈ output.projects →
      (∀ c ∈ st.1, parentsWellFormed output c) →
      ∀ c ∈ (detectProject central st proj).1, parentsWellFormed output c := by
    intro st proj hmem hinv
    unfold detectProject
    exact foldl_preserve_mem _ (fun st => ∀ c ∈ st.1, parentsWellFormed output c) _
      (fun s a ha hs => hfw _ s a ⟨proj, hmem, ha⟩ hs) st hinv
  unfold detectConflicts
  exact foldl_preserve_mem _ (fun st => ∀ c ∈ st.1, parentsWellFormed output c) _
    (fun s a ha hs => hproj s a ha hs) ([], []) (by intro c hc; simp at hc)

/-- Witness for C7's amended theorem: in the counterexample run, the parent
entry `"serilog"` differs from the conflicting package's lowercased id. -/
theorem c7_transitive_parents_amended_witness :
    ("serilog" : String) ≠ jsToLower "Humanizer" :=
  ((c7_transitive_parents_amended
      [⟨"Humanizer", "1.0.0"⟩, ⟨"Serilog", "9.9.9"⟩]
      ⟨[⟨"/src/App.csproj",
         [⟨"net8.0", [⟨"Serilog", "9.9.9", []⟩], [⟨"Humanizer", "2.0.0", []⟩]⟩]⟩]⟩
      ⟨"Humanizer", "1.0.0", "2.0.0", ["serilog"], ["App"], "net8.0"⟩
      (by decide)).2 "serilog" (by decide)).1

/-! ## Restore-warning parsing (`parseNu1608Warnings`)

The source extracts conflict data from NU1608 warning lines with the
regular expression

  `(\S+)\s+\S+\s+requires\s+(\S+)\s+\([^)]*?(\d[\d.]*\S*)\)\s+but version\s+\S+\s+(\S+)\s+was resolved`

executed with leftmost-match semantics.  The embedding below implements
that pattern directly on `List Char`.  `\S+`/`\s+` runs followed by a
complementary class or literal admit no backtracking (shrinking the run
puts a character of the wrong class at the seam), so they are consumed
possessively; the lazy `[^)]*?` loop and the `[\d.]*`/`\S*` interplay
before `\)` backtrack over the group length and the chosen `')'`, in the
engine's priority order (shortest lazy prefix first, then longest `[\d.]*`,
then longest `\S*`). -/

/-- `\S+`: the maximal non-whitespace run, failing when empty. -/
def eatTok (cs : List Char) : Option (List Char × List Char) :=
  match cs.span (fun c => !c.isWhitespace) with
  | ([], _) => none
  | (tok, rest) => some (tok, rest)

/-- `\s+`: at least one whitespace character. -/
def eatSpaces (cs : List Char) : Option (List Char) :=
  match cs.span (fun c => c.isWhitespace) with
  | ([], _) => none
  | (_, rest) => some rest

/-- A literal pattern fragment. -/
def eatLit : List Char → List Char → Option (List Char)
  | [], cs => some cs
  | _ :: _, [] => none
  | l :: ls, c :: cs => if c = l then eatLit ls cs else none

/-- `\s+but version\s+\S+\s+(\S+)\s+was resolved`, yielding capture 4 (the
resolved version). -/
def nu1608Tail (cs : List Char) : Option (List Char) :=
  match eatSpaces cs with
  | none => none
  | some r1 =>
    match eatLit "but version".toList r1 with
    | none => none
    | some r2 =>
      match eatSpaces r2 with
      | none => none
      | some r3 =>
        match eatTok r3 with
        | none => none
        | some (_, r4) =>
          match eatSpaces r4 with
          | none => none
          | some r5 =>
            match eatTok r5 with
            | none => none
            | some (cap4, r6) =>
              match eatSpaces r6 with
              | none => none
              | some r7 =>
                match eatLit "was resolved".toList r7 with
                | none => none
                | some _ => some cap4

/-- Positions of `')'` characters, offset by `i`. -/
def parenIdxs : List Char → Nat → List Nat
  | [], _ => []
  | c :: cs, i => if c = ')' then i :: parenIdxs cs (i + 1) else parenIdxs cs (i + 1)

/-- With `[\d.]*` fixed to `m` characters, try each candidate `')'`
position for the end of `\S*` (in priority order) and run the tail
pattern after it; yields (capture 3, capture 4). -/
def tryParen (d : Char) (rest : List Char) (m : Nat) :
    List Nat → Option (List Char × List Char)
  | [] => none
  | p :: ps =>
    match nu1608Tail ((rest.drop m).drop (p + 1)) with
    | some cap4 => some (d :: rest.take m ++ (rest.drop m).take p, cap4)
    | none => tryParen d rest m ps

/-- One choice of `[\d.]*` length. -/
def tryMAt (d : Char) (rest : List Char) (m : Nat) : Option (List Char × List Char) :=
  if (rest.take m).all (fun c => c.isDigit || c = '.') then
    tryParen d rest m
      ((parenIdxs ((rest.drop m).takeWhile (fun c => !c.isWhitespace)) 0).reverse)
  else none

/-- Backtracking over the `[\d.]*` length, longest first. -/
def tryM (d : Char) (rest : List Char) : Nat → Option (List Char × List Char)
  | 0 => tryMAt d rest 0
  | m + 1 =>
    match tryMAt d rest (m + 1) with
    | some r => some r
    | none => tryM d rest m

/-- The lazy `[^)]*?` loop: at each position first try the capture group
`(\d[\d.]*\S*)\)` with the rest of the pattern, else consume one non-`)`
character. -/
def nu1608Group : List Char → Option (List Char × List Char)
  | [] => none
  | c :: cs =>
    match (if c.isDigit then
             tryM c cs (cs.takeWhile (fun x => x.isDigit || x = '.')).length
           else none) with
    | some r => some r
    | none => if c = ')' then none else nu1608Group cs

/-- One match attempt at a fixed start position, yielding the four
captures (constrainer, package id, required version, resolved version). -/
def nu1608MatchAt (cs : List Char) :
    Option (List Char × List Char × List Char × List Char) :=
  match eatTok cs with
  | none => none
  | some (cap1, r1) =>
    match eatSpaces r1 with
    | none => none
    | some r2 =>
      match eatTok r2 with
      | none => none
      | some (_, r3) =>
        match eatSpaces r3 with
        | none => none
        | some r4 =>
          match eatLit "requires".toList r4 with
          | none => none
          | some r5 =>
            match eatSpaces r5 with
            | none => none
            | some r6 =>
              match eatTok r6 with
              | none => none
              | some (cap2, r7) =>
                match eatSpaces r7 with
                | none => none
                | some r8 =>
                  match eatLit "(".toList r8 with
                  | none => none
                  | some r9 =>
                    match nu1608Group r9 with
                    | none => none
                    | some (cap3, cap4) => some (cap1, cap2, cap3, cap4)

/-- `regex.exec`: try each start position left to right. -/
def nu1608Exec : List Char → Option (List Char × List Char × List Char × List Char)
  | [] => nu1608MatchAt []
  | c :: cs =>
    match nu1608MatchAt (c :: cs) with
    | some r => some r
    | none => nu1608Exec cs

/-- Appending the constrainer and project (each deduplicated) onto the
first record with the given lowercase package key. -/
def updateNu1608 (key constrainer projectName : String) :
    List TransitiveConflict → List TransitiveConflict
  | [] => []
  | c :: cs =>
    if jsToLower c.packageId == key then
      { c with
        transitiveParents :=
          if c.transitiveParents.contains constrainer then c.transitiveParents
          else c.transitiveParents ++ [constrainer],
        projects :=
          if c.projects.contains projectName then c.projects
          else c.projects ++ [projectName] } :: cs
    else c :: updateNu1608 key constrainer projectName cs

/-- Processing one restore warning: only code `NU1608` is considered, a
non-matching message is skipped, a match merges by lowercase package id. -/
def nu1608Step (st : List TransitiveConflict × List String) (w : RestoreWarning) :
    List TransitiveConflict × List String :=
  if w.code ≠ "NU1608" then st
  else
    match nu1608Exec w.message.toList with
    | none => st
    | some (cap1, cap2, cap3, cap4) =>
      if st.2.contains (jsToLower (String.mk cap2)) then
        (updateNu1608 (jsToLower (String.mk cap2)) (String.mk cap1)
          (jsProjectName w.project) st.1, st.2)
      else
        (st.1 ++ [{
            packageId := String.mk cap2,
            centralVersion := String.mk cap4,
            transitiveVersion := String.mk cap3,
            transitiveParents := [String.mk cap1],
            projects := [jsProjectName w.project],
            framework := "" }],
         st.2 ++ [jsToLower (String.mk cap2)])

/-- The final `transitiveParents` cap: more than 5 entries collapse to the
first 3 plus an `and N more` sentinel. -/
def capParents (c : TransitiveConflict) : TransitiveConflict :=
  if c.transitiveParents.length > 5 then
    { c with transitiveParents :=
        c.transitiveParents.take 3 ++
          ["and " ++ Nat.repr (c.transitiveParents.length - 3) ++ " more"] }
  else c

/-- `parseNu1608Warnings(warnings)` from `packageAnalysisService.ts`. -/
def parseNu1608Warnings (warnings : List RestoreWarning) : List TransitiveConflict :=
  ((warnings.foldl nu1608Step ([], [])).1).map capParents

/-! ### Runs of characters against the pattern pieces -/

theorem takeWhile_append_all {p : Char → Bool} {xs : List Char}
    (h : ∀ x ∈ xs, p x = true) (l : List Char) :
    (xs ++ l).takeWhile p = xs ++ l.takeWhile p := by
  induction xs with
  | nil => simp
  | cons x xs ih =>
    simp only [List.cons_append, List.takeWhile_cons, h x (List.mem_cons_self ..)]
    simp [ih (fun x hx => h x (List.mem_cons_of_mem _ hx))]

theorem takeWhile_run {p : Char → Bool} {xs : List Char} {y : Char}
    (h : ∀ x ∈ xs, p x = true) (hy : p y = false) (ys : List Char) :
    (xs ++ y :: ys).takeWhile p = xs := by
  rw [takeWhile_append_all h]
  simp [List.takeWhile_cons, hy]

theorem dropWhile_run {p : Char → Bool} {xs : List Char} {y : Char}
    (h : ∀ x ∈ xs, p x = true) (hy : p y = false) (ys : List Char) :
    (xs ++ y :: ys).dropWhile p = y :: ys := by
  induction xs with
  | nil => simp [List.dropWhile_cons, hy]
  | cons x xs ih =>
    simp only [List.cons_append, List.dropWhile_cons, h x (List.mem_cons_self ..)]
    simpa using ih (fun x hx => h x (List.mem_cons_of_mem _ hx))

theorem span_run {p : Char → Bool} {xs : List Char} {y : Char}
    (h : ∀ x ∈ xs, p x = true) (hy : p y = false) (ys : List Char) :
    (xs ++ y :: ys).span p = (xs, y :: ys) := by
  rw [List.span_eq_take_drop p (xs ++ y :: ys), takeWhile_run h hy, dropWhile_run h hy]

theorem eatTok_run {xs : List Char} {y : Char}
    (hne : xs ≠ []) (h : ∀ x ∈ xs, x.isWhitespace = false)
    (hy : y.isWhitespace = true) (ys : List Char) :
    eatTok (xs ++ y :: ys) = some (xs, y :: ys) := by
  unfold eatTok
  rw [span_run (fun x hx => by simp [h x hx]) (by simp [hy])]
  cases xs with
  | nil => exact absurd rfl hne
  | cons x xs => rfl

theorem eatSpaces_space {y : Char} (hy : y.isWhitespace = false) (ys : List Char) :
    eatSpaces (' ' :: y :: ys) = some (y :: ys) := by
  unfold eatSpaces
  rw [show (' ' :: y :: ys) = [' '] ++ y :: ys from rfl,
    span_run (by intro x hx; simp at hx; simp [hx]) hy]

theorem eatLit_append (ls rest : List Char) : eatLit ls (ls ++ rest) = some rest := by
  induction ls with
  | nil => rfl
  | cons l ls ih => simp [eatLit, ih]

theorem parenIdxs_no_paren {xs : List Char} (h : ∀ x ∈ xs, x ≠ ')') :
    ∀ i, parenIdxs xs i = [] := by
  induction xs with
  | nil => intro i; rfl
  | cons x xs ih =>
    intro i
    simp only [parenIdxs, h x (List.mem_cons_self ..), if_neg]
    exact ih (fun x hx => h x (List.mem_cons_of_mem _ hx)) (i + 1)

theorem parenIdxs_run {xs : List Char} (h : ∀ x ∈ xs, x ≠ ')') :
    ∀ i, parenIdxs (xs ++ [')']) i = [i + xs.length] := by
  induction xs with
  | nil => intro i; simp [parenIdxs]
  | cons x xs ih =>
    intro i
    simp only [List.cons_append, parenIdxs, h x (List.mem_cons_self ..), if_neg]
    simp only [show xs ++ [')'] = xs.append [')'] from rfl] at ih
    rw [if_neg (by simp), ih (fun x hx => h x (List.mem_cons_of_mem _ hx)) (i + 1)]
    simp only [List.length_cons]
    congr 1
    omega

theorem nu1608Group_skip {c : Char} (h1 : c.isDigit = false) (h2 : ¬ c = ')')
    (cs : List Char) : nu1608Group (c :: cs) = nu1608Group cs := by
  simp [nu1608Group, h1, h2]

theorem tryM_of_tryMAt {d : Char} {rest : List Char} {m : Nat}
    {r : List Char × List Char} (h : tryMAt d rest m = some r) :
    tryM d rest m = some r := by
  cases m with
  | zero => simpa [tryM] using h
  | succ m => simp [tryM, h]

theorem dropWhile_head_false {p : Char → Bool} {l : List Char} {y : Char}
    {ys : List Char} (h : l.dropWhile p = y :: ys) : p y = false := by
  induction l with
  | nil => simp at h
  | cons x xs ih =>
    rw [List.dropWhile_cons] at h
    by_cases hx : p x
    · simp only [hx, if_pos] at h
      exact ih h
    · simp only [hx, Bool.false_eq_true, if_false] at h
      cases h
      simpa using hx

/-- The tail pattern succeeds on the documented message shape. -/
theorem nu1608Tail_shape (p s tl : List Char)
    (hp : p ≠ []) (hpw : ∀ x ∈ p, x.isWhitespace = false)
    (hs : s ≠ []) (hsw : ∀ x ∈ s, x.isWhitespace = false) :
    nu1608Tail (' ' :: ("but version".toList ++ (' ' :: (p ++ ' ' :: (s ++ ' ' :: ("was resolved".toList ++ tl)))))) = some s := by
  obtain ⟨p0, p', rfl⟩ := List.exists_cons_of_ne_nil hp
  obtain ⟨s0, s', rfl⟩ := List.exists_cons_of_ne_nil hs
  have e1 : eatSpaces (' ' :: ("but version".toList ++ (' ' :: ((p0 :: p') ++ ' ' :: ((s0 :: s') ++ ' ' :: ("was resolved".toList ++ tl)))))) = some ("but version".toList ++ (' ' :: ((p0 :: p') ++ ' ' :: ((s0 :: s') ++ ' ' :: ("was resolved".toList ++ tl))))) := by
    rw [show ("but version".toList ++ (' ' :: ((p0 :: p') ++ ' ' :: ((s0 :: s') ++ ' ' :: ("was resolved".toList ++ tl))))) = 'b' :: ("ut version".toList ++ (' ' :: ((p0 :: p') ++ ' ' :: ((s0 :: s') ++ ' ' :: ("was resolved".toList ++ tl))))) from rfl]
    exact eatSpaces_space (by decide) _
  have e2 : eatLit "but version".toList ("but version".toList ++ (' ' :: ((p0 :: p') ++ ' ' :: ((s0 :: s') ++ ' ' :: ("was resolved".toList ++ tl))))) = some (' ' :: ((p0 :: p') ++ ' ' :: ((s0 :: s') ++ ' ' :: ("was resolved".toList ++ tl)))) := eatLit_append _ _
  have e3 : eatSpaces (' ' :: ((p0 :: p') ++ ' ' :: ((s0 :: s') ++ ' ' :: ("was resolved".toList ++ tl)))) = some ((p0 :: p') ++ ' ' :: ((s0 :: s') ++ ' ' :: ("was resolved".toList ++ tl))) := by
    rw [List.cons_append]
    exact eatSpaces_space (hpw p0 (List.mem_cons_self ..)) _
  have e4 : eatTok ((p0 :: p') ++ ' ' :: ((s0 :: s') ++ ' ' :: ("was resolved".toList ++ tl))) = some ((p0 :: p'), ' ' :: ((s0 :: s') ++ ' ' :: ("was resolved".toList ++ tl))) := eatTok_run hp hpw (by decide) _
  have e5 : eatSpaces (' ' :: ((s0 :: s') ++ ' ' :: ("was resolved".toList ++ tl))) = some ((s0 :: s') ++ ' ' :: ("was resolved".toList ++ tl)) := by
    rw [List.cons_append]
    exact eatSpaces_space (hsw s0 (List.mem_cons_self ..)) _
  have e6 : eatTok ((s0 :: s') ++ ' ' :: ("was resolved".toList ++ tl)) = some ((s0 :: s'), ' ' :: ("was resolved".toList ++ tl)) := eatTok_run hs hsw (by decide) _
  have e7 : eatSpaces (' ' :: ("was resolved".toList ++ tl)) = some ("was resolved".toList ++ tl) := by
    rw [show ("was resolved".toList ++ tl) = 'w' :: ("as resolved".toList ++ tl) from rfl]
    exact eatSpaces_space (by decide) _
  have e8 : eatLit "was resolved".toList ("was resolved".toList ++ tl) = some tl := eatLit_append _ _
  unfold nu1608Tail
  rw [e1]
  simp only []
  rw [e2]
  simp only []
  rw [e3]
  simp only []
  rw [e4]
  simp only []
  rw [e5]
  simp only []
  rw [e6]
  simp only []
  rw [e7]
  simp only []
  rw [e8]


/-- The capture group together with the rest of the pattern succeeds on the
documented `(= <req>) but version ...` clause, capturing the required and
resolved versions. -/
theorem nu1608Group_shape (r' p s tl : List Char) (d : Char)
    (hd : d.isDigit = true)
    (hrw : ∀ x ∈ r', x.isWhitespace = false) (hrp : ∀ x ∈ r', x ≠ ')')
    (hp : p ≠ []) (hpw : ∀ x ∈ p, x.isWhitespace = false)
    (hs : s ≠ []) (hsw : ∀ x ∈ s, x.isWhitespace = false) :
    nu1608Group ('=' :: ' ' :: ((d :: r') ++ ')' :: ' ' :: ("but version".toList ++ (' ' :: (p ++ ' ' :: (s ++ ' ' :: ("was resolved".toList ++ tl))))))) = some (d :: r', s) := by
  set rest7 : List Char := "but version".toList ++ (' ' :: (p ++ ' ' :: (s ++ ' ' :: ("was resolved".toList ++ tl)))) with hrest7
  set dd : Char → Bool := fun x => x.isDigit || x = '.' with hdd
  set ds : List Char := r'.takeWhile dd with hds
  set es : List Char := r'.dropWhile dd with hes
  have hsplit : ds ++ es = r' := List.takeWhile_append_dropWhile dd r'
  have hdsmem : ∀ x ∈ ds, dd x = true := fun x hx => List.mem_takeWhile_imp hx
  have hessub : ∀ x ∈ es, x ∈ r' := fun x hx => (List.dropWhile_sublist dd).subset hx
  set cs : List Char := r' ++ ')' :: ' ' :: rest7 with hcs
  -- Step A: the maximal [\d.] run of cs is ds
  have hA : cs.takeWhile dd = ds := by
    rw [hcs, ← hsplit, List.append_assoc]
    rw [takeWhile_append_all hdsmem]
    have : (es ++ ')' :: ' ' :: rest7).takeWhile dd = [] := by
      cases hesc : es with
      | nil => simp [List.takeWhile_cons, hdd]
      | cons e es2 =>
        have he : dd e = false := dropWhile_head_false (hes ▸ hesc)
        simp [List.takeWhile_cons, he]
    rw [this, List.append_nil]
  -- Step B: the longest-[\d.]-prefix attempt succeeds
  have hdrop : cs.drop ds.length = es ++ ')' :: ' ' :: rest7 := by
    rw [hcs, ← hsplit, List.append_assoc]
    exact List.drop_left ds (es ++ ')' :: ' ' :: rest7)
  have htake : cs.take ds.length = ds := by
    rw [hcs, ← hsplit, List.append_assoc]
    exact List.take_left ds (es ++ ')' :: ' ' :: rest7)
  have hrun : (es ++ ')' :: ' ' :: rest7).takeWhile (fun c => !c.isWhitespace) = es ++ [')'] := by
    rw [show es ++ ')' :: ' ' :: rest7 = (es ++ [')']) ++ ' ' :: rest7 by
      rw [List.append_assoc]; rfl]
    refine takeWhile_run ?_ (by decide) _
    intro x hx
    rcases List.mem_append.mp hx with h | h
    · simp [hrw x (hessub x h)]
    · simp at h
      subst h
      decide
  have hidx : parenIdxs (es ++ [')']) 0 = [es.length] := by
    have := parenIdxs_run (fun x hx => hrp x (hessub x hx)) 0
    simpa using this
  have htail : nu1608Tail ((cs.drop ds.length).drop (es.length + 1)) = some s := by
    rw [hdrop, show es ++ ')' :: ' ' :: rest7 = (es ++ [')']) ++ ' ' :: rest7 by
      rw [List.append_assoc]; rfl]
    rw [List.drop_left' (by simp)]
    rw [hrest7]
    exact nu1608Tail_shape p s tl hp hpw hs hsw
  have hB : tryMAt d cs ds.length = some (d :: r', s) := by
    unfold tryMAt
    rw [htake, if_pos (by
      have : ∀ x ∈ ds, (x.isDigit || x = '.') = true := fun x hx => hdsmem x hx
      exact List.all_eq_true.mpr this)]
    rw [hdrop, hrun, hidx]
    show tryParen d cs ds.length [es.length] = _
    unfold tryParen
    rw [htail]
    rw [htake, hdrop]
    rw [show (es ++ ')' :: ' ' :: rest7).take es.length = es from
      List.take_left' rfl]
    rw [show d :: ds ++ es = d :: r' by rw [List.cons_append, hsplit]]
  -- Step C: assemble the lazy loop
  have hm : (cs.takeWhile (fun x => x.isDigit || x = '.')).length = ds.length := by
    rw [show (fun x : Char => x.isDigit || x = '.') = dd from rfl, hA]
  rw [nu1608Group_skip (by decide) (by decide), nu1608Group_skip (by decide) (by decide)]
  rw [show (d :: r') ++ ')' :: ' ' :: rest7 = d :: cs by rw [hcs]; rfl]
  simp only [nu1608Group]
  rw [hd]
  simp only [if_true]
  rw [hm, tryM_of_tryMAt hB]


/-- The character-level form of the documented NU1608 message
`"<constrainer> <v> requires <pkg> (= <req>) but version <pkg> <resolved> was resolved"`
(with an arbitrary suffix `tl`, e.g. the closing period of the real
diagnostic). -/
def nu1608MessageChars (c1 v p req s tl : List Char) : List Char :=
  c1 ++ (' ' :: (v ++ (' ' :: ("requires".toList ++ (' ' :: (p ++ (' ' :: ('(' :: ('=' :: (' ' :: (req ++ (')' :: (' ' :: ("but version".toList ++ (' ' :: (p ++ (' ' :: (s ++ (' ' :: ("was resolved".toList ++ tl))))))))))))))))))))

/-- A match attempt at the start of a documented-shape message extracts the
four captures. -/
theorem nu1608MatchAt_shape (c1 v p r' s tl : List Char) (d : Char)
    (hc1 : c1 ≠ []) (hc1w : ∀ x ∈ c1, x.isWhitespace = false)
    (hv : v ≠ []) (hvw : ∀ x ∈ v, x.isWhitespace = false)
    (hp : p ≠ []) (hpw : ∀ x ∈ p, x.isWhitespace = false)
    (hd : d.isDigit = true)
    (hrw : ∀ x ∈ r', x.isWhitespace = false) (hrp : ∀ x ∈ r', x ≠ ')')
    (hs : s ≠ []) (hsw : ∀ x ∈ s, x.isWhitespace = false) :
    nu1608MatchAt (nu1608MessageChars c1 v p (d :: r') s tl) =
      some (c1, p, d :: r', s) := by
  obtain ⟨v0, v2, rfl⟩ := List.exists_cons_of_ne_nil hv
  obtain ⟨p0, p2, rfl⟩ := List.exists_cons_of_ne_nil hp
  set R5 : List Char := '=' :: (' ' :: ((d :: r') ++ (')' :: (' ' :: ("but version".toList ++ (' ' :: ((p0 :: p2) ++ (' ' :: (s ++ (' ' :: ("was resolved".toList ++ tl))))))))))) with hR5
  set R4 : List Char := '(' :: R5 with hR4
  set R3 : List Char := (p0 :: p2) ++ (' ' :: R4) with hR3
  set R2 : List Char := "requires".toList ++ (' ' :: R3) with hR2
  set R1 : List Char := (v0 :: v2) ++ (' ' :: R2) with hR1
  have hmsg : nu1608MessageChars c1 (v0 :: v2) (p0 :: p2) (d :: r') s tl =
      c1 ++ (' ' :: R1) := by
    rw [hR1, hR2, hR3, hR4, hR5]
    rfl
  have e1 : eatTok (c1 ++ (' ' :: R1)) = some (c1, ' ' :: R1) :=
    eatTok_run hc1 hc1w (by decide) _
  have e2 : eatSpaces (' ' :: R1) = some R1 := by
    rw [hR1, List.cons_append]
    exact eatSpaces_space (hvw v0 (List.mem_cons_self ..)) _
  have e3 : eatTok R1 = some ((v0 :: v2), ' ' :: R2) := by
    rw [hR1]
    exact eatTok_run hv hvw (by decide) _
  have e4 : eatSpaces (' ' :: R2) = some R2 := by
    rw [hR2, show ("requires".toList ++ (' ' :: R3)) = 'r' :: ("equires".toList ++ (' ' :: R3)) from rfl]
    exact eatSpaces_space (by decide) _
  have e5 : eatLit "requires".toList R2 = some (' ' :: R3) := by
    rw [hR2]
    exact eatLit_append _ _
  have e6 : eatSpaces (' ' :: R3) = some R3 := by
    rw [hR3, List.cons_append]
    exact eatSpaces_space (hpw p0 (List.mem_cons_self ..)) _
  have e7 : eatTok R3 = some ((p0 :: p2), ' ' :: R4) := by
    rw [hR3]
    exact eatTok_run hp hpw (by decide) _
  have e8 : eatSpaces (' ' :: R4) = some R4 := by
    rw [hR4]
    exact eatSpaces_space (by decide) _
  have e9 : eatLit "(".toList R4 = some R5 := by
    rw [hR4, show ('(' :: R5) = "(".toList ++ R5 from rfl]
    exact eatLit_append _ _
  have e10 : nu1608Group R5 = some (d :: r', s) := by
    rw [hR5]
    exact nu1608Group_shape r' (p0 :: p2) s tl d hd hrw hrp hp hpw hs hsw
  rw [hmsg]
  unfold nu1608MatchAt
  rw [e1]
  simp only []
  rw [e2]
  simp only []
  rw [e3]
  simp only []
  rw [e4]
  simp only []
  rw [e5]
  simp only []
  rw [e6]
  simp only []
  rw [e7]
  simp only []
  rw [e8]
  simp only []
  rw [e9]
  simp only []
  rw [e10]

/-- A successful match at the first position is what `exec` returns. -/
theorem nu1608Exec_of_matchAt {cs : List Char}
    {r : List Char × List Char × List Char × List Char}
    (h : nu1608MatchAt cs = some r) : nu1608Exec cs = some r := by
  cases cs with
  | nil => simpa [nu1608Exec] using h
  | cons c cs => simp [nu1608Exec, h]


theorem nu1608Step_skip_code {st : List TransitiveConflict × List String}
    {w : RestoreWarning} (h : w.code ≠ "NU1608") : nu1608Step st w = st := by
  simp [nu1608Step, h]

theorem nu1608Step_skip_nomatch {st : List TransitiveConflict × List String}
    {w : RestoreWarning} (hc : w.code = "NU1608")
    (h : nu1608Exec w.message.toList = none) : nu1608Step st w = st := by
  simp only [String.toList] at h
  simp [nu1608Step, hc, h]

theorem nu1608_foldl_filter (ws : List RestoreWarning) :
    ∀ st, ws.foldl nu1608Step st =
      (ws.filter (fun w => w.code == "NU1608")).foldl nu1608Step st := by
  induction ws with
  | nil => intro st; rfl
  | cons w ws ih =>
    intro st
    by_cases hc : w.code = "NU1608"
    · simp only [List.foldl_cons, List.filter_cons]
      rw [if_pos (by simp [hc])]
      simp only [List.foldl_cons]
      exact ih _
    · simp only [List.foldl_cons, List.filter_cons]
      rw [if_neg (by simp [hc]), nu1608Step_skip_code hc]
      exact ih _

/-- C5: the warning parser produces records only from NU1608-coded
warnings (any other code contributes nothing), silently skips lines not
matching the fixed text pattern, and maps a line of the documented shape
`"<constrainer> <v> requires <pkg> (= <req>) but version <pkg> <resolved> was resolved"`
to one record whose `transitiveParents` holds the constrainer, whose
`centralVersion` is the resolved version and whose `transitiveVersion` is
the required version. -/
theorem c5_warning_parsing :
    (∀ ws : List RestoreWarning,
      parseNu1608Warnings ws =
        parseNu1608Warnings (ws.filter (fun w => w.code == "NU1608"))) ∧
    (∀ (ws1 ws2 : List RestoreWarning) (w : RestoreWarning),
      w.code = "NU1608" → nu1608Exec w.message.toList = none →
      parseNu1608Warnings (ws1 ++ w :: ws2) = parseNu1608Warnings (ws1 ++ ws2)) ∧
    (∀ (c1 v p r' s tl : List Char) (d : Char) (project : String),
      c1 ≠ [] → (∀ x ∈ c1, x.isWhitespace = false) →
      v ≠ [] → (∀ x ∈ v, x.isWhitespace = false) →
      p ≠ [] → (∀ x ∈ p, x.isWhitespace = false) →
      d.isDigit = true →
      (∀ x ∈ r', x.isWhitespace = false) → (∀ x ∈ r', x ≠ ')') →
      s ≠ [] → (∀ x ∈ s, x.isWhitespace = false) →
      parseNu1608Warnings
        [⟨"NU1608", String.mk (nu1608MessageChars c1 v p (d :: r') s tl), project⟩] =
      [⟨String.mk p, String.mk s, String.mk (d :: r'), [String.mk c1],
        [jsProjectName project], ""⟩]) := by
  refine ⟨fun ws => ?_,
          fun ws1 ws2 w hc he => ?_,
          fun c1 v p r' s tl d project hc1 hc1w hv hvw hp hpw hd hrw hrp hs hsw => ?_⟩
  · unfold parseNu1608Warnings
    rw [nu1608_foldl_filter ws ([], [])]
  · unfold parseNu1608Warnings
    rw [List.foldl_append, List.foldl_append, List.foldl_cons,
      nu1608Step_skip_nomatch hc he]
  · have hexec : nu1608Exec
        (String.mk (nu1608MessageChars c1 v p (d :: r') s tl)).toList =
        some (c1, p, d :: r', s) :=
      nu1608Exec_of_matchAt
        (nu1608MatchAt_shape c1 v p r' s tl d hc1 hc1w hv hvw hp hpw hd hrw hrp hs hsw)
    unfold parseNu1608Warnings
    simp only [List.foldl_cons, List.foldl_nil]
    unfold nu1608Step
    rw [if_neg (by simp)]
    rw [show (⟨"NU1608", String.mk (nu1608MessageChars c1 v p (d :: r') s tl),
        project⟩ : RestoreWarning).message.toList =
      (String.mk (nu1608MessageChars c1 v p (d :: r') s tl)).toList from rfl]
    rw [hexec]
    simp [capParents]


/-- Witness for C5 at concrete tokens and a concrete skipped line. -/
theorem c5_warning_parsing_witness :
    parseNu1608Warnings
      [⟨"NU1608", String.mk (nu1608MessageChars ['A'] ['1'] ['P'] ['2'] ['3'] []),
        "/r/App.csproj"⟩] =
    [⟨String.mk ['P'], String.mk ['3'], String.mk ['2'], [String.mk ['A']],
      [jsProjectName "/r/App.csproj"], ""⟩] ∧
    parseNu1608Warnings ([] ++ (⟨"NU1608", "no match here", "X"⟩ : RestoreWarning) :: []) =
      parseNu1608Warnings ([] ++ []) :=
  ⟨c5_warning_parsing.2.2 ['A'] ['1'] ['P'] [] ['3'] [] '2' "/r/App.csproj"
      (by decide) (by decide) (by decide) (by decide) (by decide) (by decide)
      (by decide) (by decide) (by decide) (by decide) (by decide),
   c5_warning_parsing.2.1 [] [] ⟨"NU1608", "no match here", "X"⟩ rfl (by decide)⟩

theorem capParents_le5 (c : TransitiveConflict) :
    (capParents c).transitiveParents.length ≤ 5 := by
  unfold capParents
  split
  · rename_i h
    simp [List.length_take]
  · rename_i h
    simp at h
    simpa using h

theorem capParents_packageId (c : TransitiveConflict) :
    (capParents c).packageId = c.packageId := by
  unfold capParents
  split <;> rfl

theorem capParents_framework (c : TransitiveConflict) :
    (capParents c).framework = c.framework := by
  unfold capParents
  split <;> rfl



theorem updateNu1608_fields {c' : TransitiveConflict} {key a b : String}
    {l : List TransitiveConflict} (h : c' ∈ updateNu1608 key a b l) :
    ∃ c ∈ l, c'.packageId = c.packageId ∧ c'.framework = c.framework := by
  induction l with
  | nil => cases h
  | cons c cs ih =>
    simp only [updateNu1608] at h
    split at h
    · rcases List.mem_cons.mp h with rfl | h'
      · exact ⟨c, List.mem_cons_self .., rfl, rfl⟩
      · exact ⟨c', List.mem_cons_of_mem _ h', rfl, rfl⟩
    · rcases List.mem_cons.mp h with rfl | h'
      · exact ⟨c', List.mem_cons_self .., rfl, rfl⟩
      · obtain ⟨c₀, hc₀, he⟩ := ih h'
        exact ⟨c₀, List.mem_cons_of_mem _ hc₀, he⟩

theorem updateNu1608_map (key a b : String) (l : List TransitiveConflict) :
    (updateNu1608 key a b l).map (fun c => jsToLower c.packageId) =
      l.map (fun c => jsToLower c.packageId) := by
  induction l with
  | nil => rfl
  | cons c cs ih =>
    simp only [updateNu1608]
    split
    · simp
    · simp [ih]

/-- C10: every record of the warning parser has an empty framework, and the
lowercase package ids of the output are pairwise distinct — the identity
key of warning-derived conflicts degenerates to the package id alone, so
same-package conflicts always merge into a single record. -/
theorem c10_warning_conflicts_empty_framework (ws : List RestoreWarning) :
    (∀ c ∈ parseNu1608Warnings ws, c.framework = "") ∧
    ((parseNu1608Warnings ws).map (fun c => jsToLower c.packageId)).Nodup := by
  have main : (∀ c ∈ (ws.foldl nu1608Step ([], [])).1, c.framework = "") ∧
      (ws.foldl nu1608Step ([], [])).2 =
        (ws.foldl nu1608Step ([], [])).1.map (fun c => jsToLower c.packageId) ∧
      (ws.foldl nu1608Step ([], [])).2.Nodup := by
    refine foldl_preserve_mem nu1608Step
      (fun st : List TransitiveConflict × List String =>
        (∀ c ∈ st.1, c.framework = "") ∧
        st.2 = st.1.map (fun c => jsToLower c.packageId) ∧ st.2.Nodup)
      ws ?_ ([], []) (by simp)
    intro st w _ ⟨hfw, hmap, hnd⟩
    unfold nu1608Step
    split
    · exact ⟨hfw, hmap, hnd⟩
    · split
      · exact ⟨hfw, hmap, hnd⟩
      · rename_i caps cap1 cap2 cap3 cap4
        split
        · rename_i hcont
          refine ⟨?_, ?_, hnd⟩
          · intro c hc
            obtain ⟨c₀, hc₀, -, he⟩ := updateNu1608_fields hc
            rw [he]
            exact hfw c₀ hc₀
          · rw [updateNu1608_map, ← hmap]
        · rename_i hcont
          refine ⟨?_, ?_, ?_⟩
          · intro c hc
            rcases List.mem_append.mp hc with h' | h'
            · exact hfw c h'
            · simp only [List.mem_singleton] at h'
              rw [h']
          · simp only [List.map_append, List.map_cons, List.map_nil, ← hmap]
          · refine hnd.append (by simp) ?_
            rw [List.disjoint_singleton]
            intro hmem
            exact hcont (by simpa using hmem)
  constructor
  · intro c hc
    simp only [parseNu1608Warnings, List.mem_map] at hc
    obtain ⟨c₀, hc₀, rfl⟩ := hc
    rw [capParents_framework]
    exact main.1 c₀ hc₀
  · unfold parseNu1608Warnings
    rw [List.map_map]
    have : ((ws.foldl nu1608Step ([], [])).1).map
        ((fun c => jsToLower c.packageId) ∘ capParents) =
        ((ws.foldl nu1608Step ([], [])).1).map (fun c => jsToLower c.packageId) := by
      refine List.map_congr_left ?_
      intro c _
      simp [Function.comp, capParents_packageId]
    rw [this, ← main.2.1]
    exact main.2.2


/-- Witness for C10's per-record hypothesis at a concrete parsed warning. -/
theorem c10_warning_conflicts_empty_framework_witness :
    (⟨"P", "3", "2", ["a1"], ["App"], ""⟩ : TransitiveConflict).framework = "" :=
  (c10_warning_conflicts_empty_framework
      [⟨"NU1608", "a1 1 requires P (= 2) but version P 3 was resolved",
        "/r/App.csproj"⟩]).1
    ⟨"P", "3", "2", ["a1"], ["App"], ""⟩ (by decide)

/-- C8: after the per-package merge, every record's constrainer list is
capped at 5 entries (over-long lists collapse to 3 names plus an
`and N more` sentinel); eight distinct constrainers demanding the same
exact version of one package yield a single merged record whose
`transitiveParents` has length 4: three names and the `and 5 more`
sentinel. -/
theorem c8_parents_cap :
    (∀ (ws : List RestoreWarning), ∀ c ∈ parseNu1608Warnings ws,
      c.transitiveParents.length ≤ 5) ∧
    parseNu1608Warnings
      ((["a1", "a2", "a3", "a4", "a5", "a6", "a7", "a8"] : List String).map (fun n =>
        (⟨"NU1608", n ++ " 1 requires P (= 2) but version P 3 was resolved",
          "/r/App.csproj"⟩ : RestoreWarning))) =
    [⟨"P", "3", "2", ["a1", "a2", "a3", "and 5 more"], ["App"], ""⟩] := by
  constructor
  · intro ws c hc
    simp only [parseNu1608Warnings, List.mem_map] at hc
    obtain ⟨c₀, -, rfl⟩ := hc
    exact capParents_le5 c₀
  · decide

/-- Witness for C8's membership hypothesis: the merged record of the
eight-constrainer scenario satisfies the cap. -/
theorem c8_parents_cap_witness :
    (⟨"P", "3", "2", ["a1", "a2", "a3", "and 5 more"], ["App"], ""⟩ :
      TransitiveConflict).transitiveParents.length ≤ 5 :=
  c8_parents_cap.1
    ((["a1", "a2", "a3", "a4", "a5", "a6", "a7", "a8"] : List String).map (fun n =>
      (⟨"NU1608", n ++ " 1 requires P (= 2) but version P 3 was resolved",
        "/r/App.csproj"⟩ : RestoreWarning)))
    ⟨"P", "3", "2", ["a1", "a2", "a3", "and 5 more"], ["App"], ""⟩ (by decide)

/-! ## Vulnerability extraction (`extractVulnerabilities`) -/

/-- The `(packageId.lowercase, resolvedVersion)` seen-set key. -/
def vulnKey (pkgId version : String) : String := jsToLower pkgId ++ "|" ++ version

/-- Adding a project to the first record matching a package/version pair
(`vulns.find(...)` plus a guarded push). -/
def addProjectToVuln (pkgId version proj : String) :
    List VulnerablePackageInfo → List VulnerablePackageInfo
  | [] => []
  | v :: vs =>
    if jsToLower v.packageId == jsToLower pkgId && v.resolvedVersion == version then
      (if v.projects.contains proj then v
       else { v with projects := v.projects ++ [proj] }) :: vs
    else v :: addProjectToVuln pkgId version proj vs

/-- Processing one package of `extractVulnerabilities`'s `processPackages`
closure. -/
def vulnStep (projectName fwName : String) (isTransitive : Bool)
    (st : List VulnerablePackageInfo × List String) (pkg : DotnetListPackage) :
    List VulnerablePackageInfo × List String :=
  if pkg.vulnerabilities.isEmpty then st
  else if st.2.contains (vulnKey pkg.id pkg.resolvedVersion) then
    (addProjectToVuln pkg.id pkg.resolvedVersion projectName st.1, st.2)
  else
    (st.1 ++ [{
        packageId := pkg.id,
        resolvedVersion := pkg.resolvedVersion,
        isTransitive := isTransitive,
        vulnerabilities := pkg.vulnerabilities,
        projects := [projectName],
        framework := fwName }],
     st.2 ++ [vulnKey pkg.id pkg.resolvedVersion])

/-- `extractVulnerabilities(output)` from `packageAnalysisService.ts`:
top-level packages first (non-transitive), then transitive ones, merged by
package/version across projects. -/
def extractVulnerabilities (output : DotnetListOutput) : List VulnerablePackageInfo :=
  (output.projects.foldl
    (fun st project =>
      project.frameworks.foldl
        (fun st fw =>
          (fw.transitivePackages.foldl
            (vulnStep (jsProjectName project.path) fw.framework true)
            (fw.topLevelPackages.foldl
              (vulnStep (jsProjectName project.path) fw.framework false) st)))
        st)
    ([], [])).1

/-! ## Conflict reconciliation (`mergeConflicts`) and the vulnerability
variant of the incremental merge -/

/-- `mergeConflicts(primary, secondary)`: warning-derived records are
authoritative; JSON-derived records are appended only for package ids not
already present (case-insensitively). -/
def mergeConflicts (primary secondary : List TransitiveConflict) : List TransitiveConflict :=
  (secondary.foldl
    (fun (st : List TransitiveConflict × List String) c =>
      if st.2.contains (jsToLower c.packageId) then st
      else (st.1 ++ [c], st.2 ++ [jsToLower c.packageId]))
    (primary, primary.map (fun c => jsToLower c.packageId))).1

/-- Phase 1 of `mergeProjectVulnerabilities`. -/
def stripVulns (existing : List VulnerablePackageInfo) (affectedLower : List String) :
    List VulnerablePackageInfo :=
  existing.filterMap (fun v =>
    let remaining := v.projects.filter (fun p => !(affectedLower.contains (jsToLower p)))
    if remaining.length > 0 then some { v with projects := remaining } else none)

/-- First-match update for phase 2 of `mergeProjectVulnerabilities`, keyed
by `(packageId.lowercase, resolvedVersion)`. -/
def updateFirstVuln (pkgKey version : String) (qs : List String) :
    List VulnerablePackageInfo → List VulnerablePackageInfo
  | [] => []
  | v :: vs =>
    if jsToLower v.packageId == pkgKey && v.resolvedVersion == version then
      { v with projects := appendMissing v.projects qs } :: vs
    else v :: updateFirstVuln pkgKey version qs vs

/-- `mergeProjectVulnerabilities(existing, newResults, affectedProjectNames)`. -/
def mergeProjectVulnerabilities (existing newResults : List VulnerablePackageInfo)
    (affectedProjectNames : List String) : List VulnerablePackageInfo :=
  let affectedLower := affectedProjectNames.map jsToLower
  newResults.foldl
    (fun acc nv =>
      if acc.any (fun v => jsToLower v.packageId == jsToLower nv.packageId &&
          v.resolvedVersion == nv.resolvedVersion) then
        updateFirstVuln (jsToLower nv.packageId) nv.resolvedVersion nv.projects acc
      else acc ++ [nv])
    (stripVulns existing affectedLower)

/-! ## Transitive constraint extraction (`extractConstraintsFromAssets`) -/

structure TransitiveConstraint where
  packageId : String
  requiredVersion : String
  versionRange : String
  isExact : Bool
  requiredBy : List String
deriving Repr, DecidableEq

/-- The version token the fallback pattern `[\[(]?\s*(\d[\d.]*[^\s,)\]]*)`
captures: from the first digit, the maximal run of characters that are not
whitespace, `,`, `)` or `]` (the two greedy classes together cover exactly
that run). -/
def firstDigitRun : List Char → Option (List Char)
  | [] => none
  | c :: cs =>
    if c.isDigit then
      some (c :: cs.takeWhile (fun x => !(x.isWhitespace || x = ',' || x = ')' || x = ']')))
    else firstDigitRun cs

/-- `parseVersionRange(range)` from `packageAnalysisService.ts`: `[X]` and
`[X, X]` (trimmed-equal bounds) are exact pins; anything else degrades to
the first version-looking token as a minimum, or the trimmed input when no
digit occurs. -/
def parseVersionRange (range : String) : String × Bool :=
  let trimmed := jsTrim range.toList
  let fallback : String × Bool :=
    match firstDigitRun trimmed with
    | some run => (String.mk run, false)
    | none => (String.mk trimmed, false)
  match trimmed with
  | '[' :: rest =>
    (match rest.getLast? with
     | some ']' =>
       let inner := rest.dropLast
       if inner ≠ [] ∧ inner.all (fun c => !(c == ']' || c == ',')) then
         (String.mk (jsTrim inner), true)
       else
         let a := inner.takeWhile (fun c => !(c == ','))
         if a ≠ [] ∧ a.all (fun c => !(c == ']')) then
           match inner.drop a.length with
           | ',' :: rest2 =>
             -- `\s*` backtracks just enough to leave the non-empty capture
             let bws := rest2.dropWhile Char.isWhitespace
             let b := if bws.isEmpty then rest2.drop (rest2.length - 1) else bws
             if b ≠ [] ∧ b.all (fun c => !(c == ']')) then
               if jsTrim a = jsTrim b then (String.mk (jsTrim a), true) else fallback
             else fallback
           | _ => fallback
         else fallback
     | _ => fallback)
  | _ => fallback

/-- One target of a parsed `project.assets.json`: the package nodes with
their dependency edges (`pkgKey -> {dependencies}`), in object order. -/
structure AssetsPackage where
  pkgKey : String
  dependencies : List (String × String) := []
deriving Repr, DecidableEq

/-- A parsed assets file: the package lists of `Object.values(assets.targets)`. -/
structure AssetsFile where
  targets : List (List AssetsPackage) := []
deriving Repr, DecidableEq

/-- `pkgKey.split('/')[0]`. -/
def parentOfKey (pkgKey : String) : String :=
  String.mk (pkgKey.toList.takeWhile (fun c => !(c == '/')))

/-- Processing one dependency edge of the constraint extraction: skip
non-central dependencies and self-loops, otherwise merge into the index,
exact constraints winning over minimum constraints and ties resolved by
first-seen. -/
def constraintStep (centralNames : List String) (parentPkg : String)
    (idx : List (String × TransitiveConstraint)) (dep : String × String) :
    List (String × TransitiveConstraint) :=
  if !(centralNames.contains (jsToLower dep.1)) then idx
  else if jsToLower parentPkg == jsToLower dep.1 then idx
  else
    let parsed := parseVersionRange dep.2
    let key := jsToLower dep.1
    match idx.find? (fun e => e.1 == key) with
    | some _ =>
      idx.map (fun e =>
        if e.1 == key then
          let e' := if e.2.requiredBy.contains parentPkg then e.2
                    else { e.2 with requiredBy := e.2.requiredBy ++ [parentPkg] }
          if parsed.2 ∧ ¬ e'.isExact then
            (e.1, { e' with requiredVersion := parsed.1, versionRange := dep.2, isExact := true })
          else (e.1, e')
        else e)
    | none =>
      idx ++ [(key, { packageId := dep.1, requiredVersion := parsed.1,
                      versionRange := dep.2, isExact := parsed.2,
                      requiredBy := [parentPkg] })]

/-- The `requiredBy` cap applied after all lock graphs are processed. -/
def capRequiredBy (c : TransitiveConstraint) : TransitiveConstraint :=
  if c.requiredBy.length > 5 then
    { c with requiredBy :=
        c.requiredBy.take 3 ++ ["and " ++ Nat.repr (c.requiredBy.length - 3) ++ " more"] }
  else c

/-- The pure core of `extractConstraintsFromAssets`: rebuild the constraint
index from scratch out of the readable assets files (`none` models a
missing or unparseable file, which is swallowed). -/
def extractConstraints (central : List CentralPkg) (assets : List (Option AssetsFile)) :
    List (String × TransitiveConstraint) :=
  let centralNames := central.map (fun p => jsToLower p.name)
  (assets.foldl
    (fun idx afile =>
      match afile with
      | none => idx
      | some a =>
        a.targets.foldl
          (fun idx packages =>
            packages.foldl
              (fun idx pkg =>
                pkg.dependencies.foldl (constraintStep centralNames (parentOfKey pkg.pkgKey)) idx)
              idx)
          idx)
    ([] : List (String × TransitiveConstraint))).map
    (fun e => (e.1, capRequiredBy e.2))

/-! ## The analysis orchestrator (`runFullAnalysis` / `runProjectAnalysis`)

The service is single-threaded and event-driven: other readers (the query
methods `getAnalysisResult`, `getConflictsForPackage`,
`getVulnerabilitiesForPackage`, `getConstraintsForPackage`) can only run
while a pass is suspended at an `await`.  A pass is therefore modelled as
the list of service states visible at its suspension points, ending with
the state after the pass completes.  The suspension points of
`runFullAnalysis` are: the awaits of the availability check, the solution
path and the `Promise.allSettled` (all showing the prologue state `st1`,
reached only when a workspace root exists), and the `await` of the
parallel lock-file reads inside `extractConstraintsFromAssets` in the
`finally` block — at which point the sub-analysis results, the error and
the timestamp are already committed to the shared result in place, and the
constraint index has been cleared (`this._transitiveConstraints.clear()`
runs synchronously before the file reads). -/

structure AnalysisResult where
  transitiveConflicts : List TransitiveConflict
  vulnerablePackages : List VulnerablePackageInfo
  lastUpdated : Option Nat
  isRunning : Bool
  error : Option String
deriving Repr, DecidableEq

/-- The shared mutable state of `PackageAnalysisService`: the cached
`_analysisResult` and the `_transitiveConstraints` index. -/
structure ServiceState where
  result : AnalysisResult
  constraints : List (String × TransitiveConstraint)
deriving Repr, DecidableEq

inductive CliCode
  | NOT_FOUND
  | TIMEOUT
  | PARSE_ERROR
  | COMMAND_FAILED
deriving Repr, DecidableEq

structure CliError where
  message : String
  code : CliCode
deriving Repr, DecidableEq

/-- The external world one analysis pass interacts with: the workspace, the
CLI, the resolver outputs (per solution and per project), the central
manifest, the readable lock files and the clock. -/
structure FullEnv where
  hasWorkspaceRoot : Bool
  dotnetAvailable : Bool
  restoreWarnings : Option (List RestoreWarning)
  listOutput : Except CliError DotnetListOutput
  vulnOutput : Except CliError DotnetListOutput
  perProjectRestore : String → Option (List RestoreWarning)
  perProjectList : String → Except CliError DotnetListOutput
  central : List CentralPkg
  assets : List (Option AssetsFile)
  now : Nat

def noWorkspaceMsg : String := "No workspace root found"

/-- The pass prologue, run synchronously when a pass starts: the running
latch is set and the previous error cleared. -/
def startState (st : ServiceState) : ServiceState :=
  { st with result := { st.result with isRunning := true, error := none } }

def dotnetNotFoundMsg : String :=
  "dotnet CLI not found. Install the .NET SDK or set dotnetCpm.dotnetPath."

/-- `runTransitiveAnalysis`: restore warnings (failure caught as `[]`),
transitive listing, then the warning-path records take precedence over the
JSON-path records. -/
def runTransitiveModel (warnings : Option (List RestoreWarning))
    (listOutput : Except CliError DotnetListOutput) (central : List CentralPkg) :
    Except CliError (List TransitiveConflict) :=
  match listOutput with
  | .error e => .error e
  | .ok out =>
    .ok (mergeConflicts (parseNu1608Warnings (warnings.getD []))
      (detectConflicts central out))

/-- `runVulnerabilityAnalysis`. -/
def runVulnModel (vulnOutput : Except CliError DotnetListOutput) :
    Except CliError (List VulnerablePackageInfo) :=
  match vulnOutput with
  | .error e => .error e
  | .ok out => .ok (extractVulnerabilities out)

/-- The synchronous commit block after `Promise.allSettled` in
`runFullAnalysis`: both settled sub-results, the joined error (vulnerability
failures and transitive `PARSE_ERROR`s are non-fatal) and the timestamp are
written into the shared result together. -/
def commitFull (st1 : ServiceState) (env : FullEnv) : ServiceState :=
  let tres := runTransitiveModel env.restoreWarnings env.listOutput env.central
  let vres := runVulnModel env.vulnOutput
  let errors : List String :=
    match tres with
    | .error e =>
      if e.code = .PARSE_ERROR then [] else ["Transitive analysis: " ++ e.message]
    | .ok _ => []
  { st1 with result := { st1.result with
      transitiveConflicts := (match tres with | .ok cs => cs | .error _ => [])
      vulnerablePackages := (match vres with | .ok vs => vs | .error _ => [])
      error := if errors.length > 0 then some (String.intercalate "; " errors) else none
      lastUpdated := some env.now } }

def setError (st : ServiceState) (msg : String) : ServiceState :=
  { st with result := { st.result with error := some msg } }

def clearConstraints (st : ServiceState) : ServiceState :=
  { st with constraints := [] }

/-- End of the `finally` block: the constraint index is repopulated and the
running latch released, in one synchronous segment. -/
def finishPass (env : FullEnv) (st : ServiceState) : ServiceState :=
  { st with
      constraints := extractConstraints env.central env.assets,
      result := { st.result with isRunning := false } }

/-- The 10-minute TTL guard of `runFullAnalysis`. -/
def ttlFresh (st : ServiceState) (now : Nat) : Bool :=
  match st.result.lastUpdated with
  | some t => now - t < 10 * 60 * 1000
  | none => false

/-- The states of one `runFullAnalysis(force)` pass visible at its `await`
suspension points, ending with the pass's final state; `[]` when the TTL or
`isRunning` guard returns the cached result without starting a pass. -/
def runFullObservables (force : Bool) (st : ServiceState) (env : FullEnv) :
    List ServiceState :=
  if (!force && ttlFresh st env.now) || st.result.isRunning then []
  else
    let st1 := startState st
    if !env.hasWorkspaceRoot then
      -- the throw happens before any await; the first suspension is the
      -- lock-file read in the finally block
      let st2 := clearConstraints (setError st1 noWorkspaceMsg)
      [st2, finishPass env st2]
    else if !env.dotnetAvailable then
      let st2 := clearConstraints (setError st1 dotnetNotFoundMsg)
      [st1, st2, finishPass env st2]
    else
      let st2 := clearConstraints (commitFull st1 env)
      [st1, st2, finishPass env st2]

/-- The final state of a `runFullAnalysis` pass (the unchanged cache when
the guards short-circuit). -/
def runFullFinal (force : Bool) (st : ServiceState) (env : FullEnv) : ServiceState :=
  (runFullObservables force st env).getLastD st

/-- The states of one `runProjectAnalysis(projectPaths)` pass visible at
its suspension points (delegating to a forced full pass when no prior full
analysis exists). -/
def runProjectObservables (projectPaths : List String) (st : ServiceState)
    (env : FullEnv) : List ServiceState :=
  if st.result.isRunning then []
  else if st.result.lastUpdated.isNone then runFullObservables true st env
  else
    let st1 := startState st
    let projectNames := projectPaths.map jsProjectName
    if !env.hasWorkspaceRoot then
      let st2 := clearConstraints (setError st1 noWorkspaceMsg)
      [st2, finishPass env st2]
    else if !env.dotnetAvailable then
      let st2 := clearConstraints (setError st1 dotnetNotFoundMsg)
      [st1, st2, finishPass env st2]
    else
      let results := projectPaths.map (fun p =>
        runTransitiveModel (env.perProjectRestore p) (env.perProjectList p) env.central)
      let allNew := results.foldl
        (fun acc r => match r with | .ok cs => acc ++ cs | .error _ => acc) []
      let errors := results.foldl
        (fun acc r => match r with
          | .error e => if e.code = .PARSE_ERROR then acc else acc ++ ["Transitive: " ++ e.message]
          | .ok _ => acc) []
      let st2 := clearConstraints { st1 with result := { st1.result with
          transitiveConflicts :=
            mergeProjectConflicts st1.result.transitiveConflicts allNew projectNames
          vulnerablePackages :=
            mergeProjectVulnerabilities st1.result.vulnerablePackages [] projectNames
          error := if errors.length > 0 then some (String.intercalate "; " errors) else none
          lastUpdated := some env.now } }
      [st1, st2, finishPass env st2]


def runProjectFinal (projectPaths : List String) (st : ServiceState) (env : FullEnv) :
    ServiceState :=
  (runProjectObservables projectPaths st env).getLastD st

/-- The states a full pass exposes: nothing (guard short-circuit), or the
prologue snapshot, a committed mid-pass state with a cleared constraint
index, and the final state. -/
theorem runFullObservables_shape (force : Bool) (st : ServiceState) (env : FullEnv) :
    runFullObservables force st env = [] ∨
    ∃ mid, (runFullObservables force st env = [mid, finishPass env mid] ∨
            runFullObservables force st env = [startState st, mid, finishPass env mid]) ∧
      mid.constraints = [] ∧ mid.result.isRunning = true := by
  unfold runFullObservables
  split
  · exact Or.inl rfl
  · split
    · exact Or.inr ⟨_, Or.inl rfl, rfl, rfl⟩
    · split
      · exact Or.inr ⟨_, Or.inr rfl, rfl, rfl⟩
      · exact Or.inr ⟨_, Or.inr rfl, rfl, rfl⟩

theorem runProjectObservables_shape (projectPaths : List String) (st : ServiceState)
    (env : FullEnv) :
    runProjectObservables projectPaths st env = [] ∨
    ∃ mid, (runProjectObservables projectPaths st env = [mid, finishPass env mid] ∨
            runProjectObservables projectPaths st env =
              [startState st, mid, finishPass env mid]) ∧
      mid.constraints = [] ∧ mid.result.isRunning = true := by
  unfold runProjectObservables
  split
  · exact Or.inl rfl
  · split
    · exact runFullObservables_shape true st env
    · split
      · exact Or.inr ⟨_, Or.inl rfl, rfl, rfl⟩
      · split
        · exact Or.inr ⟨_, Or.inr rfl, rfl, rfl⟩
        · exact Or.inr ⟨_, Or.inr rfl, rfl, rfl⟩


/-- C2 counterexample: a reader at the suspension point inside the
constraint extraction of a full pass sees the NEW transitive conflicts (and
a cleared constraint index) while `isRunning` is still true — not the state
as of the start of the pass. -/
theorem c2_midpass_visibility_counterexample :
    ¬ (∀ obs ∈ runFullObservables true
          ⟨⟨[⟨"Old", "1.0", "2.0", [], ["A"], ""⟩], [], some 0, false, none⟩,
           [("k", ⟨"K", "1", "1", true, ["P"]⟩)]⟩
          ⟨true, true, some [], .ok ⟨[]⟩, .ok ⟨[]⟩, fun _ => none,
           fun _ => .error ⟨"", .COMMAND_FAILED⟩, [], [], 1000⟩,
        obs.result.isRunning = true →
        obs.result.transitiveConflicts = [⟨"Old", "1.0", "2.0", [], ["A"], ""⟩] ∧
        obs.constraints = [("k", ⟨"K", "1", "1", true, ["P"]⟩)]) := by decide

/-- C2 amended: a pass's partial work IS visible mid-pass, but only in a
restricted form — a reader while `isRunning` is true observes exactly one
of two snapshots: the start-of-pass state (old analysis fields, old
constraint index, error cleared), or the committed state, whose analysis
fields (conflicts, vulnerabilities, error, lastUpdated) already equal their
end-of-pass values while the constraint index is empty; the analysis fields
change together, never individually. -/
theorem c2_two_snapshot_visibility :
    (∀ (force : Bool) (st : ServiceState) (env : FullEnv),
      ∀ obs ∈ runFullObservables force st env, obs.result.isRunning = true →
        obs = startState st ∨
        (obs.constraints = [] ∧ finishPass env obs = runFullFinal force st env)) ∧
    (∀ (projectPaths : List String) (st : ServiceState) (env : FullEnv),
      ∀ obs ∈ runProjectObservables projectPaths st env, obs.result.isRunning = true →
        obs = startState st ∨
        (obs.constraints = [] ∧
          finishPass env obs = runProjectFinal projectPaths st env)) := by
  constructor
  · intro force st env obs hobs hrun
    rcases runFullObservables_shape force st env with hsh | ⟨mid, hsh, hmc, hmr⟩
    · rw [hsh] at hobs
      cases hobs
    · unfold runFullFinal
      rcases hsh with hsh | hsh <;> rw [hsh] at hobs ⊢
      · rcases List.mem_cons.mp hobs with rfl | hobs
        · exact Or.inr ⟨hmc, by simp [List.getLastD]⟩
        · simp only [List.mem_singleton] at hobs
          subst hobs
          exact absurd hrun (by simp [finishPass])
      · rcases List.mem_cons.mp hobs with rfl | hobs
        · exact Or.inl rfl
        · rcases List.mem_cons.mp hobs with rfl | hobs
          · exact Or.inr ⟨hmc, by simp [List.getLastD]⟩
          · simp only [List.mem_singleton] at hobs
            subst hobs
            exact absurd hrun (by simp [finishPass])
  · intro projectPaths st env obs hobs hrun
    rcases runProjectObservables_shape projectPaths st env with hsh | ⟨mid, hsh, hmc, hmr⟩
    · rw [hsh] at hobs
      cases hobs
    · unfold runProjectFinal
      rcases hsh with hsh | hsh <;> rw [hsh] at hobs ⊢
      · rcases List.mem_cons.mp hobs with rfl | hobs
        · exact Or.inr ⟨hmc, by simp [List.getLastD]⟩
        · simp only [List.mem_singleton] at hobs
          subst hobs
          exact absurd hrun (by simp [finishPass])
      · rcases List.mem_cons.mp hobs with rfl | hobs
        · exact Or.inl rfl
        · rcases List.mem_cons.mp hobs with rfl | hobs
          · exact Or.inr ⟨hmc, by simp [List.getLastD]⟩
          · simp only [List.mem_singleton] at hobs
            subst hobs
            exact absurd hrun (by simp [finishPass])

/-- Witness for C2's amended theorem at the counterexample's input,
instantiated at the committed mid-pass snapshot. -/
theorem c2_two_snapshot_visibility_witness :
    (⟨⟨[], [], some 1000, true, none⟩, []⟩ : ServiceState) =
      startState ⟨⟨[⟨"Old", "1.0", "2.0", [], ["A"], ""⟩], [], some 0, false, none⟩,
        [("k", ⟨"K", "1", "1", true, ["P"]⟩)]⟩ ∨
    ((⟨⟨[], [], some 1000, true, none⟩, []⟩ : ServiceState).constraints = [] ∧
      finishPass
        ⟨true, true, some [], .ok ⟨[]⟩, .ok ⟨[]⟩, fun _ => none,
         fun _ => .error ⟨"", .COMMAND_FAILED⟩, [], [], 1000⟩
        ⟨⟨[], [], some 1000, true, none⟩, []⟩ =
      runFullFinal true
        ⟨⟨[⟨"Old", "1.0", "2.0", [], ["A"], ""⟩], [], some 0, false, none⟩,
         [("k", ⟨"K", "1", "1", true, ["P"]⟩)]⟩
        ⟨true, true, some [], .ok ⟨[]⟩, .ok ⟨[]⟩, fun _ => none,
         fun _ => .error ⟨"", .COMMAND_FAILED⟩, [], [], 1000⟩) :=
  c2_two_snapshot_visibility.1 true
    ⟨⟨[⟨"Old", "1.0", "2.0", [], ["A"], ""⟩], [], some 0, false, none⟩,
     [("k", ⟨"K", "1", "1", true, ["P"]⟩)]⟩
    ⟨true, true, some [], .ok ⟨[]⟩, .ok ⟨[]⟩, fun _ => none,
     fun _ => .error ⟨"", .COMMAND_FAILED⟩, [], [], 1000⟩
    ⟨⟨[], [], some 1000, true, none⟩, []⟩ (by decide) (by decide)

/-- C9: a full pass that starts and then fails before its sub-analyses (no
workspace root, or no dotnet CLI) leaves the cached conflicts,
vulnerabilities and timestamp exactly as before the pass, stores the
failure message in `error`, and releases the running latch. -/
theorem c9_failed_pass_preserves_cache (force : Bool) (st : ServiceState)
    (env : FullEnv) (hidle : st.result.isRunning = false)
    (hstale : force = true ∨ ttlFresh st env.now = false)
    (hfail : env.hasWorkspaceRoot = false ∨ env.dotnetAvailable = false) :
    (runFullFinal force st env).result.transitiveConflicts =
      st.result.transitiveConflicts ∧
    (runFullFinal force st env).result.vulnerablePackages =
      st.result.vulnerablePackages ∧
    (runFullFinal force st env).result.lastUpdated = st.result.lastUpdated ∧
    (runFullFinal force st env).result.isRunning = false ∧
    (runFullFinal force st env).result.error =
      some (if env.hasWorkspaceRoot then dotnetNotFoundMsg else noWorkspaceMsg) := by
  have hguard : ((!force && ttlFresh st env.now) || st.result.isRunning) = false := by
    rcases hstale with h | h <;> simp [h, hidle]
  unfold runFullFinal runFullObservables
  rw [hguard]
  simp only [Bool.false_eq_true, if_false]
  rcases hfail with h | h
  · simp [h, List.getLastD, finishPass, clearConstraints, setError, startState]
  · rcases hroot : env.hasWorkspaceRoot with _ | _ <;>
      simp [h, List.getLastD, finishPass, clearConstraints, setError, startState]


/-- Witness for C9 at a concrete pre-pass cache and a root-less workspace. -/
theorem c9_failed_pass_preserves_cache_witness :
    (runFullFinal true
        ⟨⟨[⟨"Old", "1.0", "2.0", [], ["A"], ""⟩], [], some 5, false, none⟩, []⟩
        ⟨false, true, none, .error ⟨"x", .COMMAND_FAILED⟩, .error ⟨"x", .COMMAND_FAILED⟩,
         fun _ => none, fun _ => .error ⟨"x", .COMMAND_FAILED⟩, [], [],
         99⟩).result.transitiveConflicts =
      [⟨"Old", "1.0", "2.0", [], ["A"], ""⟩] :=
  (c9_failed_pass_preserves_cache true
    ⟨⟨[⟨"Old", "1.0", "2.0", [], ["A"], ""⟩], [], some 5, false, none⟩, []⟩
    ⟨false, true, none, .error ⟨"x", .COMMAND_FAILED⟩, .error ⟨"x", .COMMAND_FAILED⟩,
     fun _ => none, fun _ => .error ⟨"x", .COMMAND_FAILED⟩, [], [], 99⟩
    rfl (Or.inl rfl) (Or.inl rfl)).1

end Cpm
